import Mathlib

/-!
The `EventDispatcher` of MxEngine: a shallow embedding.

Source: `src/Utilities/EventDispatcher/EventDispatcher.h`.

Modelling decisions.

* An event class is identified by a `Kind` (the `std::type_index` of the class).  The
  `inline static size_t eventType` that `MAKE_EVENT` puts into every event class is one
  variable per class, shared by all dispatcher instances: it is the function
  `eventType : Kind → Nat`, threaded explicitly.  `GetEventType()` of an event object reads
  the static of the object's class at the time of the call.
* `std::map` and `std::unordered_map` are `KeyMap`s: association lists whose keys are
  pairwise distinct (the container invariant).  The list order stands for the iteration order
  of the container; a key that is not present yet is put at the end.  The C++ standard leaves
  the iteration order of `unordered_map` open, so no theorem below speaks about the relative
  order of two different keys, only about the order inside one `CallbackList`.
* `size_t` is `Nat`: the only arithmetic is `typeMap.size() + 1`, and a map cannot hold
  `2^64 - 1` entries.
* A user handler (`std::function<void(EventType&)>`) is identified by a number.  What it does
  is given by a table `Handlers σ`: from its own state `σ` and the event it computes a new
  state and the calls it makes on the dispatcher.  The calls a handler may make are
  `AddEventListener`, `RemoveEventListener`, `AddEvent` and `RegisterEventType`; a handler
  that calls `Invoke`/`InvokeAll` re-enters `RemoveQueuedEvents` while `ProcessEvent` iterates
  over `callbacks`, which is outside the defined behaviour of the C++ code.
-/

namespace MxEngine

/-! ## Keyed containers -/

section RawLists

variable {κ : Type} {β : Type} [DecidableEq κ]

/-- `find` on the raw entry list: the value stored under `k`, if any. -/
def lookupL (k : κ) : List (κ × β) → Option β
  | [] => none
  | p :: r => if p.1 = k then some p.2 else lookupL k r

/-- Apply `f` to the value stored under `k`; nothing happens when `k` is absent. -/
def modifyL (k : κ) (f : β → β) : List (κ × β) → List (κ × β)
  | [] => []
  | p :: r => if p.1 = k then (p.1, f p.2) :: r else p :: modifyL k f r

/-- `m[k]` followed by an update `f` of the referenced value: an absent key is first
inserted with the value-initialised `d`. -/
def alterL (k : κ) (d : β) (f : β → β) (l : List (κ × β)) : List (κ × β) :=
  match lookupL k l with
  | some _ => modifyL k f l
  | none => l ++ [(k, f d)]

theorem lookupL_eq_none_iff (k : κ) (l : List (κ × β)) :
    lookupL k l = none ↔ k ∉ l.map Prod.fst := by
  induction l with
  | nil => simp [lookupL]
  | cons p r ih =>
    by_cases h : p.1 = k
    · simp [lookupL, h]
    · simp only [lookupL, h, if_false, ih, List.map_cons, List.mem_cons, not_or]
      constructor
      · intro hr; exact ⟨fun hk => h hk.symm, hr⟩
      · intro hr; exact hr.2

theorem lookupL_mem (k : κ) (v : β) (l : List (κ × β)) (h : lookupL k l = some v) :
    (k, v) ∈ l := by
  induction l with
  | nil => simp [lookupL] at h
  | cons p r ih =>
    by_cases hp : p.1 = k
    · simp only [lookupL, hp, if_true, Option.some.injEq] at h
      subst hp; subst h; simp
    · simp only [lookupL, hp, if_false] at h
      exact List.mem_cons_of_mem _ (ih h)

theorem mem_lookupL (k : κ) (v : β) (l : List (κ × β)) (hn : (l.map Prod.fst).Nodup)
    (h : (k, v) ∈ l) : lookupL k l = some v := by
  induction l with
  | nil => simp at h
  | cons p r ih =>
    simp only [List.map_cons, List.nodup_cons] at hn
    rcases List.mem_cons.1 h with h1 | h1
    · subst h1; simp [lookupL]
    · have hk : k ∈ r.map Prod.fst := List.mem_map.2 ⟨(k, v), h1, rfl⟩
      have hp : p.1 ≠ k := fun e => hn.1 (e ▸ hk)
      simp only [lookupL, hp, if_false]
      exact ih hn.2 h1

theorem keys_modifyL (k : κ) (f : β → β) (l : List (κ × β)) :
    (modifyL k f l).map Prod.fst = l.map Prod.fst := by
  induction l with
  | nil => rfl
  | cons p r ih =>
    by_cases h : p.1 = k
    · simp [modifyL, h]
    · simp [modifyL, h, ih]

theorem length_modifyL (k : κ) (f : β → β) (l : List (κ × β)) :
    (modifyL k f l).length = l.length := by
  have := congrArg List.length (keys_modifyL k f l)
  simpa using this

theorem lookupL_modifyL (k k' : κ) (f : β → β) (l : List (κ × β)) :
    lookupL k' (modifyL k f l) =
      if k = k' then (lookupL k' l).map f else lookupL k' l := by
  induction l with
  | nil => simp [modifyL, lookupL]
  | cons p r ih =>
    by_cases h : p.1 = k
    · by_cases h' : k = k'
      · subst h'; simp [modifyL, lookupL, h]
      · have hp : p.1 ≠ k' := fun e => h' (h ▸ e)
        simp [modifyL, lookupL, h, h', hp]
    · by_cases h' : k = k'
      · subst h'; simp [modifyL, lookupL, h, ih]
      · by_cases hp : p.1 = k'
        · have hk : ¬ k' = k := fun e => h' e.symm
          subst hp
          simp [modifyL, lookupL, h', hk]
        · simp [modifyL, lookupL, h, h', hp, ih]

theorem modifyL_of_not_mem (k : κ) (f : β → β) (l : List (κ × β))
    (h : lookupL k l = none) : modifyL k f l = l := by
  induction l with
  | nil => rfl
  | cons p r ih =>
    by_cases hp : p.1 = k
    · simp [lookupL, hp] at h
    · simp only [lookupL, hp, if_false] at h
      simp [modifyL, hp, ih h]

theorem modifyL_same (k : κ) (f : β → β) (l : List (κ × β))
    (h : ∀ v, lookupL k l = some v → f v = v) : modifyL k f l = l := by
  induction l with
  | nil => rfl
  | cons p r ih =>
    by_cases hp : p.1 = k
    · have := h p.2 (by simp [lookupL, hp])
      subst hp
      simp [modifyL, this]
    · have h2 : ∀ v, lookupL k r = some v → f v = v := by
        intro v hv; apply h; simp [lookupL, hp, hv]
      simp [modifyL, hp, ih h2]

theorem lookupL_append_none (k : κ) (l r : List (κ × β)) (h : lookupL k l = none) :
    lookupL k (l ++ r) = lookupL k r := by
  induction l with
  | nil => rfl
  | cons p q ih =>
    by_cases hp : p.1 = k
    · simp [lookupL, hp] at h
    · simp only [lookupL, hp, if_false] at h
      simp [lookupL, hp, ih h]

theorem lookupL_append_some (k : κ) (v : β) (l r : List (κ × β)) (h : lookupL k l = some v) :
    lookupL k (l ++ r) = some v := by
  induction l with
  | nil => simp [lookupL] at h
  | cons p q ih =>
    by_cases hp : p.1 = k
    · simpa [lookupL, hp] using h
    · simp only [lookupL, hp, if_false] at h
      simp [lookupL, hp, ih h]

theorem keys_alterL (k : κ) (d : β) (f : β → β) (l : List (κ × β)) :
    (alterL k d f l).map Prod.fst =
      if k ∈ l.map Prod.fst then l.map Prod.fst else l.map Prod.fst ++ [k] := by
  unfold alterL
  cases h : lookupL k l with
  | none =>
    have := (lookupL_eq_none_iff k l).1 h
    simp [this]
  | some v =>
    have : k ∈ l.map Prod.fst := by
      by_contra hc
      rw [(lookupL_eq_none_iff k l).2 hc] at h
      cases h
    simp only [this, if_true]
    exact keys_modifyL k f l

theorem nodup_alterL (k : κ) (d : β) (f : β → β) (l : List (κ × β))
    (h : (l.map Prod.fst).Nodup) : ((alterL k d f l).map Prod.fst).Nodup := by
  rw [keys_alterL]
  by_cases hk : k ∈ l.map Prod.fst
  · simpa [hk] using h
  · simp only [hk, if_false]
    refine List.Nodup.append h (by simp) ?_
    intro a ha hb
    simp only [List.mem_singleton] at hb
    exact hk (hb ▸ ha)

theorem lookupL_alterL (k k' : κ) (d : β) (f : β → β) (l : List (κ × β)) :
    lookupL k' (alterL k d f l) =
      if k = k' then some (f ((lookupL k l).getD d)) else lookupL k' l := by
  unfold alterL
  cases h : lookupL k l with
  | none =>
    by_cases hk : k = k'
    · subst hk
      simp [lookupL_append_none _ _ _ h, lookupL]
    · simp only [hk, if_false]
      cases h' : lookupL k' l with
      | none => simp [lookupL_append_none _ _ _ h', lookupL, hk]
      | some v => exact lookupL_append_some _ _ _ _ h'
  | some v =>
    simp only [lookupL_modifyL]
    by_cases hk : k = k'
    · subst hk; simp [h]
    · simp [hk]

end RawLists

/-- A map container (`std::map`, `std::unordered_map`): entries with pairwise distinct keys,
listed in iteration order. -/
structure KeyMap (κ : Type) (β : Type) where
  entries : List (κ × β)
  nodup : (entries.map Prod.fst).Nodup

namespace KeyMap

variable {κ : Type} {β : Type} [DecidableEq κ]

/-- The default-constructed container. -/
def empty : KeyMap κ β := ⟨[], List.nodup_nil⟩

/-- `m.size()`. -/
def size (m : KeyMap κ β) : Nat := m.entries.length

/-- `m.find(k)`: `none` stands for `m.end()`. -/
def find (m : KeyMap κ β) (k : κ) : Option β := lookupL k m.entries

/-- The value under `k`, or `d` (a value-initialised `β`) when `k` is absent. -/
def getD (m : KeyMap κ β) (k : κ) (d : β) : β := (m.find k).getD d

/-- `f(m[k])` for an in-place update `f`: `operator[]` inserts a value-initialised entry `d`
when the key is absent, then the referenced value is updated. -/
def alter (m : KeyMap κ β) (k : κ) (d : β) (f : β → β) : KeyMap κ β :=
  ⟨alterL k d f m.entries, nodup_alterL k d f m.entries m.nodup⟩

/-- `m[k]` used as an rvalue: only the insertion of a value-initialised entry remains. -/
def touch (m : KeyMap κ β) (k : κ) (d : β) : KeyMap κ β := m.alter k d id

/-- `m[k] = v`. -/
def assign (m : KeyMap κ β) (k : κ) (d : β) (v : β) : KeyMap κ β := m.alter k d (fun _ => v)

/-- `m.emplace(k, v)`: inserts only when `k` is absent. -/
def emplace (m : KeyMap κ β) (k : κ) (v : β) : KeyMap κ β :=
  ⟨alterL k v id m.entries, nodup_alterL k v id m.entries m.nodup⟩

/-- Update every stored value in place (a loop `for (auto& [k, v] : m) v = g(v)`). -/
def mapValues (m : KeyMap κ β) (g : β → β) : KeyMap κ β :=
  ⟨m.entries.map (fun p => (p.1, g p.2)), by
    have h : (m.entries.map (fun p => (p.1, g p.2))).map Prod.fst = m.entries.map Prod.fst := by
      simp [List.map_map, Function.comp_def]
    rw [h]; exact m.nodup⟩

omit [DecidableEq κ] in
theorem ext_entries {m₁ m₂ : KeyMap κ β} (h : m₁.entries = m₂.entries) : m₁ = m₂ := by
  cases m₁; cases m₂; simp only at h; subst h; rfl

theorem find_alter (m : KeyMap κ β) (k k' : κ) (d : β) (f : β → β) :
    (m.alter k d f).find k' = if k = k' then some (f (m.getD k d)) else m.find k' := by
  simp [find, alter, getD, lookupL_alterL]

theorem getD_alter (m : KeyMap κ β) (k k' : κ) (d d' : β) (f : β → β) :
    (m.alter k d f).getD k' d' = if k = k' then f (m.getD k d) else m.getD k' d' := by
  unfold getD
  rw [find_alter]
  by_cases h : k = k' <;> simp [h, getD]

theorem find_mapValues (m : KeyMap κ β) (g : β → β) (k : κ) :
    (m.mapValues g).find k = (m.find k).map g := by
  unfold find mapValues
  simp only
  induction m.entries with
  | nil => simp [lookupL]
  | cons p r ih =>
    by_cases h : p.1 = k
    · simp [lookupL, h]
    · simp [lookupL, h, ih]

end KeyMap

/-! ## Data model -/

/-- The identity of an event class (`typeid(EventType)`). -/
abbrev Kind := Nat

/-- `using EventTypeIndex = size_t`. -/
abbrev EventTypeIndex := Nat

/-- An event object: its dynamic class, and some data the class carries. -/
structure Event where
  kind : Kind
  payload : Nat
deriving DecidableEq, Repr

/-- The closure that `AddEventListener<EventType>` builds around the user handler `func`:
`[func](EventBase& e) { if (e.GetEventType() == EventType::eventType) func((EventType&)e); }`.
It is determined by the class it was instantiated for and by the handler it captured. -/
structure CallbackBaseFunction where
  EventType : Kind
  func : Nat
deriving DecidableEq, Repr

/-- `std::pair<std::string, CallbackBaseFunction>`. -/
abbrev NamedCallback := String × CallbackBaseFunction

/-- `std::vector<NamedCallback>`. -/
abbrev CallbackList := List NamedCallback

/-- `std::vector<std::unique_ptr<EventBase>>`. -/
abbrev EventList := List Event

/-- `std::map<std::type_index, EventTypeIndex>`. -/
abbrev EventTypeMap := KeyMap Kind EventTypeIndex

/-- The data members of `EventDispatcher<EventBase>`. -/
structure EventDispatcher where
  events : EventList
  callbacks : KeyMap EventTypeIndex CallbackList
  toAddCache : KeyMap EventTypeIndex CallbackList
  toRemoveCache : List String
  typeMap : EventTypeMap

/-- A default-constructed dispatcher. -/
def EventDispatcher.init : EventDispatcher :=
  { events := [], callbacks := KeyMap.empty, toAddCache := KeyMap.empty,
    toRemoveCache := [], typeMap := KeyMap.empty }

/-- What a member function of one dispatcher can read and write: the statics
`EventType::eventType` of all event classes, and the members of `this`. -/
structure Context where
  eventType : Kind → EventTypeIndex
  self : EventDispatcher

/-! ## Registration and the deferred mutation of the listener table -/

/-- `EventDispatcher::RegisterEventType<EventType>()`. -/
def RegisterEventType (EventType : Kind) (c : Context) : Context :=
  if c.eventType EventType = 0 then
    let typeMap₁ :=
      match c.self.typeMap.find EventType with
      | none => c.self.typeMap.emplace EventType (c.self.typeMap.size + 1)
      | some _ => c.self.typeMap
    let typeMap₂ := typeMap₁.touch EventType 0
    { eventType := Function.update c.eventType EventType (typeMap₂.getD EventType 0),
      self := { c.self with typeMap := typeMap₂ } }
  else
    { c with self := { c.self with
        typeMap := c.self.typeMap.assign EventType 0 (c.eventType EventType) } }

/-- `EventDispatcher::AddCallbackImpl<EventType>(name, func)`. -/
def AddCallbackImpl (EventType : Kind) (name : String) (func : CallbackBaseFunction)
    (c : Context) : Context :=
  { c with self := { c.self with
      toAddCache := c.self.toAddCache.alter (c.eventType EventType) []
        (fun list => list ++ [(name, func)]) } }

/-- `EventDispatcher::AddEventListener<EventType>(name, func)`. -/
def AddEventListener (EventType : Kind) (name : String) (func : Nat) (c : Context) : Context :=
  AddCallbackImpl EventType name { EventType := EventType, func := func }
    (RegisterEventType EventType c)

/-- `EventDispatcher::RemoveEventListener(name)`. -/
def RemoveEventListener (name : String) (d : EventDispatcher) : EventDispatcher :=
  { d with toRemoveCache := d.toRemoveCache ++ [name] }

/-- `EventDispatcher::AddEvent(event)`. -/
def AddEvent (event : Event) (d : EventDispatcher) : EventDispatcher :=
  { d with events := d.events ++ [event] }

/-- `EventDispatcher::RemoveEventByName(callbacks, name)`: `std::remove_if` keeps the
elements that do not satisfy the predicate, in their order, and `resize` cuts the rest. -/
def RemoveEventByName (callbacks : CallbackList) (name : String) : CallbackList :=
  callbacks.filter (fun p => decide (p.1 ≠ name))

/-- The first loop nest of `RemoveQueuedEvents`. -/
def removeAll (toRemoveCache : List String) (callbacks : KeyMap EventTypeIndex CallbackList) :
    KeyMap EventTypeIndex CallbackList :=
  toRemoveCache.foldl
    (fun cbs name => cbs.mapValues (fun list => RemoveEventByName list name)) callbacks

/-- The second loop nest of `RemoveQueuedEvents`: `callbacks[event].push_back(func)` for
every `func` of every entry of `toAddCache`. -/
def addAll (toAddCache : List (EventTypeIndex × CallbackList))
    (callbacks : KeyMap EventTypeIndex CallbackList) : KeyMap EventTypeIndex CallbackList :=
  toAddCache.foldl
    (fun cbs p => p.2.foldl (fun cbs func => cbs.alter p.1 [] (fun list => list ++ [func])) cbs)
    callbacks

/-- `EventDispatcher::RemoveQueuedEvents()`. -/
def RemoveQueuedEvents (d : EventDispatcher) : EventDispatcher :=
  { d with
    callbacks := addAll d.toAddCache.entries (removeAll d.toRemoveCache d.callbacks)
    toRemoveCache := []
    toAddCache := d.toAddCache.mapValues (fun _ => []) }

/-- `EventDispatcher::Clone()`. -/
def Clone (d : EventDispatcher) : EventDispatcher :=
  { EventDispatcher.init with typeMap := d.typeMap }

/-! ## Dispatch -/

/-- A call that a user handler makes on the dispatcher while it runs. -/
inductive Call where
  | AddEventListener (EventType : Kind) (name : String) (func : Nat)
  | RemoveEventListener (name : String)
  | AddEvent (event : Event)
  | RegisterEventType (EventType : Kind)
deriving DecidableEq, Repr

/-- Carry out one call. -/
def Call.exec (c : Context) : Call → Context
  | .AddEventListener EventType name func => MxEngine.AddEventListener EventType name func c
  | .RemoveEventListener name => { c with self := MxEngine.RemoveEventListener name c.self }
  | .AddEvent event => { c with self := MxEngine.AddEvent event c.self }
  | .RegisterEventType EventType => MxEngine.RegisterEventType EventType c

/-- Carry out a sequence of calls, in order. -/
def execAll (calls : List Call) (c : Context) : Context :=
  calls.foldl Call.exec c

/-- The user handlers: handler `func`, in its state `u`, on `event`, moves to a new state and
makes some calls on the dispatcher. -/
abbrev Handlers (σ : Type) := Nat → σ → Event → σ × List Call

/-- A running program: the dispatcher and the statics, the state of the user code, and a
record of every execution of a user handler (which listener, on which event). -/
structure Run (σ : Type) extends Context where
  user : σ
  fired : List (NamedCallback × Event)

/-- One `callback(event)` of `ProcessEvent`: the adapter compares `event.GetEventType()` with
`EventType::eventType` and only then runs the user handler. -/
def callback (H : Handlers σ) (event : Event) (r : Run σ) (nc : NamedCallback) : Run σ :=
  if r.eventType event.kind = r.eventType nc.2.EventType then
    { toContext := execAll (H nc.2.func r.user event).2 r.toContext
      user := (H nc.2.func r.user event).1
      fired := r.fired ++ [(nc, event)] }
  else r

/-- Deliver `event` to the given callbacks, in order. -/
def deliver (H : Handlers σ) (event : Event) (cbs : List NamedCallback) (r : Run σ) : Run σ :=
  cbs.foldl (callback H event) r

/-- `EventDispatcher::ProcessEvent(event)`.  The two nested loops walk `this->callbacks`;
no call a handler can make writes `callbacks` (`exec_callbacks` below), so the walk sees
the table as it is when the function is entered. -/
def ProcessEvent (H : Handlers σ) (event : Event) (r : Run σ) : Run σ :=
  r.self.callbacks.entries.foldl (fun r p => deliver H event p.2 r) r

/-- The flush as a step of a running program. -/
def Run.flush (r : Run σ) : Run σ :=
  { r with self := RemoveQueuedEvents r.self }

/-- `EventDispatcher::Invoke(event)`. -/
def Invoke (H : Handlers σ) (event : Event) (r : Run σ) : Run σ :=
  ProcessEvent H event r.flush

/-- The loop of `InvokeAll`, from index `i`: `events.size()` is read again before every
step.  The loop runs as long as handlers keep adding events, so it is given `fuel`: the
number of iterations it may make; `none` means the fuel did not suffice. -/
def InvokeAllLoop (H : Handlers σ) : Nat → Nat → Run σ → Option (Run σ)
  | 0, i, r => if i < r.self.events.length then none else some r
  | fuel + 1, i, r =>
    if h : i < r.self.events.length then
      InvokeAllLoop H fuel (i + 1) (ProcessEvent H (r.self.events.get ⟨i, h⟩) r)
    else some r

/-- `this->events.clear()`. -/
def Run.clearEvents (r : Run σ) : Run σ :=
  { r with self := { r.self with events := [] } }

/-- `EventDispatcher::InvokeAll()`. -/
def InvokeAll (H : Handlers σ) (fuel : Nat) (r : Run σ) : Option (Run σ) :=
  (InvokeAllLoop H fuel 0 r.flush).map Run.clearEvents

/-- The executions of user handlers that happened between `r` and a later `r'`. -/
def firedSince (r r' : Run σ) : List (NamedCallback × Event) :=
  r'.fired.drop r.fired.length

/-- All active listeners, in the order `ProcessEvent` visits them. -/
def activeListeners (d : EventDispatcher) : List NamedCallback :=
  (d.callbacks.entries.map Prod.snd).flatten

/-! ## Auxiliary notions used in the statements -/

/-- The value `RegisterEventType` finds or creates for a class whose static is still `0`. -/
def freshIndex (typeMap : EventTypeMap) (EventType : Kind) : EventTypeIndex :=
  match typeMap.find EventType with
  | none => typeMap.size + 1
  | some v => v

/-- Every value stored in the registry is a proper tag (not `0`). -/
def TypeMapPositive (d : EventDispatcher) : Prop :=
  ∀ p ∈ d.typeMap.entries, p.2 ≠ 0

/-- The part of a context that type registration is about: the statics and `typeMap`. -/
def Context.toRegistry (c : Context) : (Kind → EventTypeIndex) × EventTypeMap :=
  (c.eventType, c.self.typeMap)

/-- A sequence of calls `RegisterEventType<K>()`, one for every `K` of the list, in order. -/
def registerAll (kinds : List Kind) (c : Context) : Context :=
  kinds.foldl (fun c K => RegisterEventType K c) c

/-- Several dispatcher instances in one program: they share the statics of the event
classes, and each has its own members. -/
structure World where
  eventType : Kind → EventTypeIndex
  dispatchers : Nat → EventDispatcher

/-- The start of the program: every static is zero-initialised, every dispatcher is
default-constructed. -/
def World.init : World :=
  { eventType := fun _ => 0, dispatchers := fun _ => EventDispatcher.init }

/-- A registration call on the dispatcher instance number `target`. -/
inductive WorldCall where
  | RegisterEventType (target : Nat) (EventType : Kind)
  | AddEventListener (target : Nat) (EventType : Kind) (name : String) (func : Nat)
deriving DecidableEq, Repr

/-- The instance a call is made on. -/
def WorldCall.target : WorldCall → Nat
  | .RegisterEventType i _ => i
  | .AddEventListener i _ _ _ => i

/-- The member function a call runs, on the context of its instance. -/
def WorldCall.run : WorldCall → Context → Context
  | .RegisterEventType _ K => MxEngine.RegisterEventType K
  | .AddEventListener _ K name func => MxEngine.AddEventListener K name func

/-- One call in a program with several dispatchers. -/
def World.step (w : World) (call : WorldCall) : World :=
  { eventType := (call.run ⟨w.eventType, w.dispatchers call.target⟩).eventType
    dispatchers := Function.update w.dispatchers call.target
      (call.run ⟨w.eventType, w.dispatchers call.target⟩).self }

/-- A sequence of calls, in order. -/
def World.exec (calls : List WorldCall) (w : World) : World :=
  calls.foldl World.step w

/-- The statics that are set in `et` have the same value in `c`. -/
def Stable (et : Kind → EventTypeIndex) (c : Context) : Prop :=
  ∀ k, et k ≠ 0 → c.eventType k = et k

/-- Distinct registered classes have distinct tags: a tag other than `0` belongs to one
class only. -/
def TagsDistinct (et : Kind → EventTypeIndex) : Prop :=
  ∀ k₁ k₂, et k₁ = et k₂ → et k₁ ≠ 0 → k₁ = k₂

/-- Every listener, active or pending, is filed under the tag of the class it was added for,
and that tag is a proper one.  `AddEventListener` files every listener this way, and a tag
that is set never changes. -/
def Stored (c : Context) : Prop :=
  ∀ t nc, (nc ∈ c.self.callbacks.getD t [] ∨ nc ∈ c.self.toAddCache.getD t []) →
    c.eventType nc.2.EventType = t ∧ t ≠ 0

/-- One dispatch pass over a fixed list of listeners: the events are delivered one after the
other, each to the whole list. -/
def dispatchPass (H : Handlers σ) (cbs : List NamedCallback) (events : List Event)
    (r : Run σ) : Run σ :=
  events.foldl (fun s e => deliver H e cbs s) r

/-- The registry of one dispatcher agrees with the statics: a class has a proper tag exactly
when the registry holds that tag under the class, and the stored tags are `1, 2, ...` in the
order of insertion. -/
def RegistryExact (et : Kind → EventTypeIndex) (typeMap : EventTypeMap) : Prop :=
  (∀ k, et k ≠ 0 → typeMap.find k = some (et k)) ∧
  (∀ k v, typeMap.find k = some v → et k = v) ∧
  typeMap.entries.map Prod.snd = List.range' 1 typeMap.entries.length

/-- No handler ever calls `AddEvent`. -/
def NoEnqueue (H : Handlers σ) : Prop :=
  ∀ func u e ev, Call.AddEvent ev ∉ (H func u e).2

/-! ## Concrete scenarios -/

/-- Handlers that make no call on the dispatcher. -/
def quiet : Handlers Unit := fun _ u _ => (u, [])

/-- A program at its start, with one default-constructed dispatcher. -/
def fresh : Run Unit :=
  { eventType := fun _ => 0, self := EventDispatcher.init, user := (), fired := [] }

/-- Listener "A" (handler 10) added for class 1, then listener "B" (handler 11) added for
class 2, on a fresh dispatcher: class 1 gets tag 1 and class 2 gets tag 2. -/
def tickResize : Run Unit :=
  { fresh with
    toContext := AddEventListener 2 "B" 11 (AddEventListener 1 "A" 10 fresh.toContext) }

/-- Both listeners of `tickResize`, with three events in the queue. -/
def threeQueued : Run Unit :=
  { tickResize with
    toContext := { tickResize.toContext with
      self := AddEvent ⟨1, 3⟩ (AddEvent ⟨2, 2⟩ (AddEvent ⟨1, 1⟩ tickResize.self)) } }

/-- A call made on the dispatcher by the program itself, outside any handler. -/
def Run.call (r : Run σ) (call : Call) : Run σ :=
  { r with toContext := call.exec r.toContext }

/-- Listener "M" (handler 10, class 1) is active, and `RemoveEventListener("M")` has been
called since the last flush. -/
def removalOfMPending : EventDispatcher :=
  RemoveEventListener "M" (RemoveQueuedEvents (AddEventListener 1 "M" 10 fresh.toContext).self)

/-- Listener "N" (handler 10) added for class 1 on a fresh dispatcher. -/
def onlyN : Run Unit :=
  fresh.call (Call.AddEventListener 1 "N" 10)

/-- Listener "N" was added, then `RemoveEventListener("N")` was called, with no flush in
between: the entry is pending in `toAddCache` and its name is in `toRemoveCache`. -/
def addedThenRemoved : Run Unit :=
  (onlyN.call (Call.RemoveEventListener "N"))

/-- Classes 5 and 6 have been registered on dispatcher 0 (tags 1 and 2); this is what a
member function of the still untouched dispatcher 1 sees. -/
def secondDispatcher : Context :=
  { eventType :=
      (World.exec [.RegisterEventType 0 5, .RegisterEventType 0 6] World.init).eventType
    self :=
      (World.exec [.RegisterEventType 0 5, .RegisterEventType 0 6] World.init).dispatchers 1 }

/-- No handler ever calls `AddEventListener` or `RemoveEventListener`. -/
def NoListenerCalls (H : Handlers σ) : Prop :=
  ∀ func u e, (∀ K name f, Call.AddEventListener K name f ∉ (H func u e).2) ∧
    (∀ name, Call.RemoveEventListener name ∉ (H func u e).2)

/-- The body of an adapter after its check: the user handler runs on the event. -/
def runHandler (H : Handlers σ) (event : Event) (r : Run σ) (nc : NamedCallback) : Run σ :=
  { toContext := execAll (H nc.2.func r.user event).2 r.toContext
    user := (H nc.2.func r.user event).1
    fired := r.fired ++ [(nc, event)] }

/-- Discriminated dispatch, as the specification words it: only the entries of the active
list stored under the tag of the event are run, in list order, without any check. -/
def ProcessEventByTag (H : Handlers σ) (event : Event) (r : Run σ) : Run σ :=
  (r.self.callbacks.getD (r.eventType event.kind) []).foldl (runHandler H event) r

/-- The state of the loop of `InvokeAll` after at most `k` iterations, started at index `i`:
like `InvokeAllLoop`, but it stops where it is when the iterations are used up. -/
def InvokeAllSteps (H : Handlers σ) : Nat → Nat → Run σ → Run σ
  | 0, _, r => r
  | k + 1, i, r =>
    if h : i < r.self.events.length then
      InvokeAllSteps H k (i + 1) (ProcessEvent H (r.self.events.get ⟨i, h⟩) r)
    else r

/-- Handler 10 enqueues the event `⟨1, 1⟩` when it is run on an event with payload `0`; no
other call is made. -/
def enqueueOnce : Handlers Unit :=
  fun func u e =>
    (u, if func = 10 ∧ e.payload = 0 then [Call.AddEvent ⟨1, 1⟩] else [])

/-- Listener "A" (handler 10, class 1) is pending and the event `⟨1, 0⟩` is queued. -/
def oneQueued : Run Unit :=
  (fresh.call (Call.AddEventListener 1 "A" 10)).call (Call.AddEvent ⟨1, 0⟩)

/-- `dispatchers[target] = dispatchers[source].Clone()` in a program with several
dispatchers. -/
def World.Clone (w : World) (source target : Nat) : World :=
  { eventType := w.eventType
    dispatchers :=
      Function.update w.dispatchers target (MxEngine.Clone (w.dispatchers source)) }

/-! ## The key binding of the runtime editor

Source: `RuntimeEditor::AddKeyBinding` in `src/Core/Runtime/RuntimeEditor.cpp`.  The handler
added for `UpdateEvent` is a `mutable` closure; of its captures only `savedStateKeyHeld`
decides what it does.  On every update it reads `IsKeyHeldUnchecked(openKey)` and, inside the
second `if`, `IsActive()`; what it does to the editor is one call `ToggleRuntimeEditor(false)`
or `ToggleRuntimeEditor(true)`.  The calls that save, set and restore the cursor accompany
that call and touch neither `savedStateKeyHeld` nor the editor; they are left out. -/

/-- One run of the handler: from `savedStateKeyHeld` and the two readings to the new
`savedStateKeyHeld` and the argument of the `ToggleRuntimeEditor` call, if one is made. -/
def keyBindingUpdate (savedStateKeyHeld isHeld isActive : Bool) : Bool × Option Bool :=
  let saved₁ := if isHeld != savedStateKeyHeld then false else savedStateKeyHeld
  if isHeld && !saved₁ then (true, some (if isActive then false else true))
  else (saved₁, none)

/-- The handler run on a sequence of updates, each with its readings `(isHeld, isActive)`:
for every update, the `savedStateKeyHeld` it leaves and the toggle call it makes. -/
def keyBindingRun (savedStateKeyHeld : Bool) : List (Bool × Bool) → List (Bool × Option Bool)
  | [] => []
  | reading :: rest =>
    keyBindingUpdate savedStateKeyHeld reading.1 reading.2 ::
      keyBindingRun (keyBindingUpdate savedStateKeyHeld reading.1 reading.2).1 rest

/-- The key-held reading of update `i` (counted from 0). -/
def heldAt (readings : List (Bool × Bool)) (i : Nat) : Bool :=
  ((readings.map Prod.fst)[i]?).getD false

/-- The key-held reading before update `i`; before the first update it is `initial`. -/
def heldBefore (initial : Bool) (readings : List (Bool × Bool)) : Nat → Bool
  | 0 => initial
  | j + 1 => heldAt readings j

/-! ## Programs

A program around the dispatcher is a sequence of steps: calls on the dispatcher and the two
dispatch functions. -/

/-- One step of a program. -/
inductive Step where
  | call (c : Call)
  | Invoke (event : Event)
  | InvokeAll (fuel : Nat)
deriving DecidableEq, Repr

/-- Carry out one step; `none` when `InvokeAll` was given too little fuel. -/
def Run.step (H : Handlers σ) (r : Run σ) : Step → Option (Run σ)
  | .call c => some (r.call c)
  | .Invoke event => some (MxEngine.Invoke H event r)
  | .InvokeAll fuel => MxEngine.InvokeAll H fuel r

/-- Two default-constructed dispatchers: listener "A" (handler 10) is added for class 1 on
dispatcher 0, then class 2 is registered on dispatcher 1. -/
def crossDispatcher : World :=
  World.exec [.AddEventListener 0 1 "A" 10, .RegisterEventType 1 2] World.init

/-- The program of `crossDispatcher`, seen from dispatcher 0. -/
def onFirstDispatcher : Run Unit :=
  { eventType := crossDispatcher.eventType, self := crossDispatcher.dispatchers 0,
    user := (), fired := [] }

/-! ## The flush -/

theorem getD_mapValues_nil (m : KeyMap EventTypeIndex CallbackList)
    (g : CallbackList → CallbackList) (hg : g [] = []) (t : EventTypeIndex) :
    (m.mapValues g).getD t [] = g (m.getD t []) := by
  unfold KeyMap.getD
  rw [KeyMap.find_mapValues]
  cases m.find t <;> simp [hg]

theorem getD_removeAll (names : List String) (cbs : KeyMap EventTypeIndex CallbackList)
    (t : EventTypeIndex) :
    (removeAll names cbs).getD t [] =
      (cbs.getD t []).filter (fun p => decide (p.1 ∉ names)) := by
  induction names generalizing cbs with
  | nil => simp [removeAll]
  | cons n ns ih =>
    have step : removeAll (n :: ns) cbs =
        removeAll ns (cbs.mapValues (fun list => RemoveEventByName list n)) := rfl
    rw [step, ih, getD_mapValues_nil _ _ (by simp [RemoveEventByName])]
    simp only [RemoveEventByName, List.filter_filter]
    congr 1
    funext p
    by_cases h1 : p.1 = n <;> by_cases h2 : p.1 ∈ ns <;> simp [h1, h2]

theorem getD_pushAll (funcs : CallbackList) (k t : EventTypeIndex)
    (cbs : KeyMap EventTypeIndex CallbackList) :
    (funcs.foldl (fun cbs func => cbs.alter k [] (fun list => list ++ [func])) cbs).getD t [] =
      cbs.getD t [] ++ (if k = t then funcs else []) := by
  induction funcs generalizing cbs with
  | nil => simp
  | cons f fs ih =>
    simp only [List.foldl_cons]
    rw [ih, KeyMap.getD_alter]
    by_cases h : k = t <;> simp [h]

theorem getD_addAll (entries : List (EventTypeIndex × CallbackList))
    (hn : (entries.map Prod.fst).Nodup) (cbs : KeyMap EventTypeIndex CallbackList)
    (t : EventTypeIndex) :
    (addAll entries cbs).getD t [] = cbs.getD t [] ++ (lookupL t entries).getD [] := by
  induction entries generalizing cbs with
  | nil => simp [addAll, lookupL]
  | cons p ps ih =>
    simp only [List.map_cons, List.nodup_cons] at hn
    have step : addAll (p :: ps) cbs =
        addAll ps (p.2.foldl
          (fun cbs func => cbs.alter p.1 [] (fun list => list ++ [func])) cbs) := rfl
    rw [step, ih hn.2, getD_pushAll]
    by_cases h : p.1 = t
    · have hnone : lookupL t ps = none := by
        rw [lookupL_eq_none_iff]; exact h ▸ hn.1
      simp [lookupL, h, hnone]
    · simp [lookupL, h]

/-- The active list under `t` after the flush: the survivors of the old list, then the
pending additions of `t`. -/
theorem flush_getD (d : EventDispatcher) (t : EventTypeIndex) :
    (RemoveQueuedEvents d).callbacks.getD t [] =
      (d.callbacks.getD t []).filter (fun p => decide (p.1 ∉ d.toRemoveCache))
        ++ d.toAddCache.getD t [] := by
  show (addAll d.toAddCache.entries (removeAll d.toRemoveCache d.callbacks)).getD t [] = _
  rw [getD_addAll _ d.toAddCache.nodup, getD_removeAll]
  rfl

theorem flush_pending_empty (d : EventDispatcher) (t : EventTypeIndex) :
    (RemoveQueuedEvents d).toAddCache.getD t [] = [] := by
  show (d.toAddCache.mapValues (fun _ => [])).getD t [] = []
  rw [getD_mapValues_nil _ _ rfl]

/-- C5.  `RemoveQueuedEvents` leaves, under every tag `t`, the old active list of `t` without
the entries whose name is in `toRemoveCache` (the survivors keep their order), followed by the
entries of `toAddCache[t]` in their order; afterwards `toRemoveCache` is empty and every list
stored in `toAddCache` is empty. -/
theorem RemoveQueuedEvents_spec (d : EventDispatcher) :
    (∀ t, (RemoveQueuedEvents d).callbacks.getD t [] =
        (d.callbacks.getD t []).filter (fun p => decide (p.1 ∉ d.toRemoveCache))
          ++ d.toAddCache.getD t []) ∧
    (RemoveQueuedEvents d).toRemoveCache = [] ∧
    (∀ p ∈ (RemoveQueuedEvents d).toAddCache.entries, p.2 = []) ∧
    (∀ t, (RemoveQueuedEvents d).toAddCache.getD t [] = []) := by
  refine ⟨flush_getD d, rfl, ?_, flush_pending_empty d⟩
  intro p hp
  simp only [RemoveQueuedEvents, KeyMap.mapValues, List.mem_map] at hp
  obtain ⟨q, _, rfl⟩ := hp
  rfl

/-! ## The type registry -/

theorem alterL_id_of_mem {κ β : Type} [DecidableEq κ] (k : κ) (d v : β) (l : List (κ × β))
    (h : lookupL k l = some v) : alterL k d id l = l := by
  unfold alterL
  rw [h]
  exact modifyL_same k id l (fun _ _ => rfl)

theorem RegisterEventType_entries (K : Kind) (c : Context) :
    (RegisterEventType K c).self.typeMap.entries =
      if c.eventType K = 0 then
        (match c.self.typeMap.find K with
          | none => c.self.typeMap.entries ++ [(K, c.self.typeMap.size + 1)]
          | some _ => c.self.typeMap.entries)
      else alterL K 0 (fun _ => c.eventType K) c.self.typeMap.entries := by
  unfold RegisterEventType
  by_cases h0 : c.eventType K = 0
  · simp only [h0, if_true]
    cases hf : c.self.typeMap.find K with
    | none =>
      have hl : lookupL K c.self.typeMap.entries = none := hf
      have h1 : alterL K (c.self.typeMap.size + 1) id c.self.typeMap.entries =
          c.self.typeMap.entries ++ [(K, c.self.typeMap.size + 1)] := by
        unfold alterL; rw [hl]; rfl
      have h2 : lookupL K (c.self.typeMap.entries ++ [(K, c.self.typeMap.size + 1)]) =
          some (c.self.typeMap.size + 1) := by
        rw [lookupL_append_none _ _ _ hl]; simp [lookupL]
      simp only [KeyMap.touch, KeyMap.alter, KeyMap.emplace, h1]
      exact alterL_id_of_mem K 0 _ _ h2
    | some v =>
      have hl : lookupL K c.self.typeMap.entries = some v := hf
      simp only [KeyMap.touch, KeyMap.alter]
      exact alterL_id_of_mem K 0 v _ hl
  · simp only [h0, if_false]
    rfl

theorem RegisterEventType_eventType (K : Kind) (c : Context) :
    (RegisterEventType K c).eventType =
      if c.eventType K = 0 then Function.update c.eventType K (freshIndex c.self.typeMap K)
      else c.eventType := by
  by_cases h0 : c.eventType K = 0
  · have he := RegisterEventType_entries K c
    simp only [h0, if_true] at he ⊢
    have hv : (RegisterEventType K c).eventType =
        Function.update c.eventType K ((RegisterEventType K c).self.typeMap.getD K 0) := by
      unfold RegisterEventType
      simp only [h0, if_true]
    rw [hv]
    unfold KeyMap.getD KeyMap.find freshIndex
    rw [he]
    cases hf : c.self.typeMap.find K with
    | none =>
      have hl : lookupL K c.self.typeMap.entries = none := hf
      simp [lookupL_append_none _ _ _ hl, lookupL]
    | some v =>
      have hl : lookupL K c.self.typeMap.entries = some v := hf
      simp [hl]
  · unfold RegisterEventType
    simp [h0]

theorem RegisterEventType_frame (K : Kind) (c : Context) :
    (RegisterEventType K c).self.events = c.self.events ∧
    (RegisterEventType K c).self.callbacks = c.self.callbacks ∧
    (RegisterEventType K c).self.toAddCache = c.self.toAddCache ∧
    (RegisterEventType K c).self.toRemoveCache = c.self.toRemoveCache := by
  unfold RegisterEventType
  by_cases h0 : c.eventType K = 0 <;> simp [h0]

/-- After `RegisterEventType<K>()` the registry holds the static of `K` under `K`. -/
theorem RegisterEventType_find (K : Kind) (c : Context) :
    (RegisterEventType K c).self.typeMap.find K = some ((RegisterEventType K c).eventType K) := by
  unfold KeyMap.find
  rw [RegisterEventType_entries, RegisterEventType_eventType]
  by_cases h0 : c.eventType K = 0
  · simp only [h0, if_true, Function.update_same, freshIndex]
    cases hf : c.self.typeMap.find K with
    | none =>
      have hl : lookupL K c.self.typeMap.entries = none := hf
      simp [lookupL_append_none _ _ _ hl, lookupL]
    | some v => exact hf
  · simp only [h0, if_false]
    rw [lookupL_alterL]
    simp

theorem mem_modifyL {κ β : Type} [DecidableEq κ] (k : κ) (f : β → β) (l : List (κ × β))
    (q : κ × β) (h : q ∈ modifyL k f l) : q ∈ l ∨ ∃ v, (k, v) ∈ l ∧ q = (k, f v) := by
  induction l with
  | nil => simp [modifyL] at h
  | cons p r ih =>
    by_cases hp : p.1 = k
    · simp only [modifyL, hp, if_true, List.mem_cons] at h
      rcases h with h | h
      · right; exact ⟨p.2, by subst hp; simp, h⟩
      · left; exact List.mem_cons_of_mem _ h
    · simp only [modifyL, hp, if_false, List.mem_cons] at h
      rcases h with h | h
      · left; simp [h]
      · rcases ih h with h' | ⟨v, hv, hq⟩
        · left; exact List.mem_cons_of_mem _ h'
        · right; exact ⟨v, List.mem_cons_of_mem _ hv, hq⟩

theorem mem_alterL {κ β : Type} [DecidableEq κ] (k : κ) (d : β) (f : β → β)
    (l : List (κ × β)) (q : κ × β) (h : q ∈ alterL k d f l) :
    q ∈ l ∨ ∃ v, q = (k, f v) := by
  unfold alterL at h
  cases hl : lookupL k l with
  | none =>
    rw [hl] at h
    simp only [List.mem_append, List.mem_singleton] at h
    rcases h with h | h
    · exact Or.inl h
    · exact Or.inr ⟨d, h⟩
  | some v =>
    rw [hl] at h
    rcases mem_modifyL k f l q h with h | ⟨w, _, hq⟩
    · exact Or.inl h
    · exact Or.inr ⟨w, hq⟩

theorem TypeMapPositive_init : TypeMapPositive EventDispatcher.init := by
  intro p hp
  simp [EventDispatcher.init, KeyMap.empty] at hp

theorem TypeMapPositive_RegisterEventType (K : Kind) (c : Context)
    (h : TypeMapPositive c.self) : TypeMapPositive (RegisterEventType K c).self := by
  intro p hp
  rw [RegisterEventType_entries] at hp
  by_cases h0 : c.eventType K = 0
  · simp only [h0, if_true] at hp
    cases hf : c.self.typeMap.find K with
    | none =>
      rw [hf] at hp
      simp only [List.mem_append, List.mem_singleton] at hp
      rcases hp with hp | hp
      · exact h p hp
      · subst hp; simp
    | some v =>
      rw [hf] at hp
      exact h p hp
  · simp only [h0, if_false] at hp
    rcases mem_alterL _ _ _ _ _ hp with hp | ⟨_, hq⟩
    · exact h p hp
    · subst hq; exact h0

/-- In a state whose registry holds only proper tags, `RegisterEventType<K>()` leaves `K`
with a proper tag. -/
theorem RegisterEventType_ne_zero (K : Kind) (c : Context) (h : TypeMapPositive c.self) :
    (RegisterEventType K c).eventType K ≠ 0 := by
  have hf := RegisterEventType_find K c
  have hp := TypeMapPositive_RegisterEventType K c h
  exact hp (K, _) (lookupL_mem _ _ _ hf)

/-- A static that is set is never written again by `RegisterEventType`. -/
theorem RegisterEventType_keeps (K k : Kind) (c : Context) (hk : c.eventType k ≠ 0) :
    (RegisterEventType K c).eventType k = c.eventType k := by
  rw [RegisterEventType_eventType]
  by_cases h0 : c.eventType K = 0
  · have hne : k ≠ K := fun e => hk (e ▸ h0)
    simp [h0, Function.update_noteq hne]
  · simp [h0]

theorem Context_ext_fields {c₁ c₂ : Context} (h1 : c₁.eventType = c₂.eventType)
    (h2 : c₁.self = c₂.self) : c₁ = c₂ := by
  cases c₁; cases c₂; simp only at h1 h2; subst h1; subst h2; rfl

theorem EventDispatcher_ext_fields {d₁ d₂ : EventDispatcher} (h1 : d₁.events = d₂.events)
    (h2 : d₁.callbacks = d₂.callbacks) (h3 : d₁.toAddCache = d₂.toAddCache)
    (h4 : d₁.toRemoveCache = d₂.toRemoveCache) (h5 : d₁.typeMap = d₂.typeMap) : d₁ = d₂ := by
  cases d₁; cases d₂; simp only at h1 h2 h3 h4 h5
  subst h1; subst h2; subst h3; subst h4; subst h5; rfl

/-- C8.  `RegisterEventType<K>()` is idempotent: the second of two calls in a row changes
neither the static of any class nor any member of the dispatcher, so the tag of `K` read
after the second call is the tag read after the first. -/
theorem RegisterEventType_idempotent (K : Kind) (c : Context) :
    RegisterEventType K (RegisterEventType K c) = RegisterEventType K c ∧
    (RegisterEventType K (RegisterEventType K c)).eventType K =
      (RegisterEventType K c).eventType K := by
  have key : RegisterEventType K (RegisterEventType K c) = RegisterEventType K c := by
    have hfind := RegisterEventType_find K c
    have hfr := RegisterEventType_frame K (RegisterEventType K c)
    have hent : (RegisterEventType K (RegisterEventType K c)).self.typeMap.entries =
        (RegisterEventType K c).self.typeMap.entries := by
      rw [RegisterEventType_entries K (RegisterEventType K c), hfind]
      by_cases h1 : (RegisterEventType K c).eventType K = 0
      · simp [h1]
      · simp only [h1, if_false]
        unfold alterL
        have hl : lookupL K (RegisterEventType K c).self.typeMap.entries =
            some ((RegisterEventType K c).eventType K) := hfind
        rw [hl]
        exact modifyL_same _ _ _ (fun v hv => by rw [hl] at hv; exact Option.some.inj hv)
    have het : (RegisterEventType K (RegisterEventType K c)).eventType =
        (RegisterEventType K c).eventType := by
      rw [RegisterEventType_eventType K (RegisterEventType K c)]
      by_cases h1 : (RegisterEventType K c).eventType K = 0
      · simp only [h1, if_true, freshIndex, hfind]
        exact Function.update_eq_self_iff.2 h1.symm
      · simp [h1]
    exact Context_ext_fields het
      (EventDispatcher_ext_fields hfr.1 hfr.2.1 hfr.2.2.1 hfr.2.2.2 (KeyMap.ext_entries hent))
  exact ⟨key, by rw [key]⟩

/-! ## Adding and removing listeners -/

theorem AddCallbackImpl_frame (K : Kind) (name : String) (func : CallbackBaseFunction)
    (c : Context) :
    (AddCallbackImpl K name func c).eventType = c.eventType ∧
    (AddCallbackImpl K name func c).self.typeMap = c.self.typeMap ∧
    (AddCallbackImpl K name func c).self.events = c.self.events ∧
    (AddCallbackImpl K name func c).self.callbacks = c.self.callbacks ∧
    (AddCallbackImpl K name func c).self.toRemoveCache = c.self.toRemoveCache :=
  ⟨rfl, rfl, rfl, rfl, rfl⟩

theorem AddEventListener_eventType (K : Kind) (name : String) (func : Nat) (c : Context) :
    (AddEventListener K name func c).eventType = (RegisterEventType K c).eventType := rfl

theorem AddEventListener_typeMap (K : Kind) (name : String) (func : Nat) (c : Context) :
    (AddEventListener K name func c).self.typeMap = (RegisterEventType K c).self.typeMap := rfl

theorem TypeMapPositive_AddEventListener (K : Kind) (name : String) (func : Nat) (c : Context)
    (h : TypeMapPositive c.self) : TypeMapPositive (AddEventListener K name func c).self :=
  TypeMapPositive_RegisterEventType K c h

/-- C6.  In a state whose registry holds only proper tags (true of the default-constructed
dispatcher and kept by every operation), `AddEventListener<K>(name, func)` registers `K`:
afterwards the static of `K` is not `0` and is the value the registry holds under `K`.  It
puts exactly one entry, `(name, adapter of func for K)`, at the end of `toAddCache[tag of K]`;
the lists of `toAddCache` under other tags, `callbacks`, `toRemoveCache` and `events` are
unchanged. -/
theorem AddEventListener_spec (K : Kind) (name : String) (func : Nat) (c : Context)
    (h : TypeMapPositive c.self) :
    (AddEventListener K name func c).eventType K ≠ 0 ∧
    (AddEventListener K name func c).self.typeMap.find K =
      some ((AddEventListener K name func c).eventType K) ∧
    (AddEventListener K name func c).toRegistry = (RegisterEventType K c).toRegistry ∧
    (AddEventListener K name func c).self.toAddCache.getD
        ((AddEventListener K name func c).eventType K) [] =
      c.self.toAddCache.getD ((AddEventListener K name func c).eventType K) []
        ++ [(name, { EventType := K, func := func })] ∧
    (∀ t, t ≠ (AddEventListener K name func c).eventType K →
      (AddEventListener K name func c).self.toAddCache.find t = c.self.toAddCache.find t) ∧
    (AddEventListener K name func c).self.callbacks = c.self.callbacks ∧
    (AddEventListener K name func c).self.toRemoveCache = c.self.toRemoveCache ∧
    (AddEventListener K name func c).self.events = c.self.events := by
  have hfr := RegisterEventType_frame K c
  refine ⟨RegisterEventType_ne_zero K c h, RegisterEventType_find K c, rfl, ?_, ?_,
    hfr.2.1, hfr.2.2.2, hfr.1⟩
  · show ((RegisterEventType K c).self.toAddCache.alter _ [] _).getD _ [] = _
    rw [KeyMap.getD_alter, hfr.2.2.1]
    simp [AddEventListener_eventType]
  · intro t ht
    show ((RegisterEventType K c).self.toAddCache.alter _ [] _).find t = _
    rw [KeyMap.find_alter, hfr.2.2.1]
    have : ¬ (RegisterEventType K c).eventType K = t := fun e => ht e.symm
    simp [this]

/-- C6, at an instance: the first listener added to a fresh dispatcher. -/
theorem AddEventListener_spec_witness :
    TypeMapPositive EventDispatcher.init ∧
    (AddEventListener 7 "A" 0 ⟨fun _ => 0, EventDispatcher.init⟩).self.toAddCache.getD
        ((AddEventListener 7 "A" 0 ⟨fun _ => 0, EventDispatcher.init⟩).eventType 7) [] =
      (EventDispatcher.init).toAddCache.getD
        ((AddEventListener 7 "A" 0 ⟨fun _ => 0, EventDispatcher.init⟩).eventType 7) []
        ++ [("A", { EventType := 7, func := 0 })] :=
  ⟨TypeMapPositive_init,
    (AddEventListener_spec 7 "A" 0 ⟨fun _ => 0, EventDispatcher.init⟩
      TypeMapPositive_init).2.2.2.1⟩

/-! ## What a handler can and cannot change -/

theorem exec_callbacks (c : Context) (call : Call) :
    (call.exec c).self.callbacks = c.self.callbacks := by
  cases call with
  | AddEventListener K name func => exact (RegisterEventType_frame K c).2.1
  | RemoveEventListener name => rfl
  | AddEvent event => rfl
  | RegisterEventType K => exact (RegisterEventType_frame K c).2.1

theorem execAll_callbacks (calls : List Call) (c : Context) :
    (execAll calls c).self.callbacks = c.self.callbacks := by
  induction calls generalizing c with
  | nil => rfl
  | cons call rest ih =>
    show (execAll rest (call.exec c)).self.callbacks = _
    rw [ih, exec_callbacks]

theorem callback_callbacks (H : Handlers σ) (e : Event) (r : Run σ) (nc : NamedCallback) :
    (callback H e r nc).self.callbacks = r.self.callbacks := by
  unfold callback
  split
  · exact execAll_callbacks _ _
  · rfl

theorem deliver_callbacks (H : Handlers σ) (e : Event) (cbs : List NamedCallback) (r : Run σ) :
    (deliver H e cbs r).self.callbacks = r.self.callbacks := by
  induction cbs generalizing r with
  | nil => rfl
  | cons nc rest ih =>
    show (deliver H e rest (callback H e r nc)).self.callbacks = _
    rw [ih, callback_callbacks]

theorem foldl_deliver (H : Handlers σ) (e : Event)
    (buckets : List (EventTypeIndex × CallbackList)) (r : Run σ) :
    buckets.foldl (fun r p => deliver H e p.2 r) r =
      deliver H e (buckets.map Prod.snd).flatten r := by
  induction buckets generalizing r with
  | nil => rfl
  | cons p ps ih =>
    simp only [List.foldl_cons, List.map_cons, List.flatten_cons]
    rw [ih]
    simp [deliver, List.foldl_append]

theorem ProcessEvent_eq_deliver (H : Handlers σ) (e : Event) (r : Run σ) :
    ProcessEvent H e r = deliver H e (activeListeners r.self) r :=
  foldl_deliver H e _ r

theorem ProcessEvent_callbacks (H : Handlers σ) (e : Event) (r : Run σ) :
    (ProcessEvent H e r).self.callbacks = r.self.callbacks := by
  rw [ProcessEvent_eq_deliver, deliver_callbacks]

theorem exec_stable (et : Kind → EventTypeIndex) (c : Context) (call : Call)
    (h : Stable et c) : Stable et (call.exec c) := by
  intro k hk
  have hc : c.eventType k ≠ 0 := by rw [h k hk]; exact hk
  cases call with
  | AddEventListener K name func =>
    show (RegisterEventType K c).eventType k = _
    rw [RegisterEventType_keeps K k c hc, h k hk]
  | RemoveEventListener name => exact h k hk
  | AddEvent event => exact h k hk
  | RegisterEventType K =>
    show (RegisterEventType K c).eventType k = _
    rw [RegisterEventType_keeps K k c hc, h k hk]

theorem execAll_stable (et : Kind → EventTypeIndex) (calls : List Call) (c : Context)
    (h : Stable et c) : Stable et (execAll calls c) := by
  induction calls generalizing c with
  | nil => exact h
  | cons call rest ih => exact ih _ (exec_stable et c call h)

theorem callback_stable (H : Handlers σ) (e : Event) (et : Kind → EventTypeIndex) (r : Run σ)
    (nc : NamedCallback) (h : Stable et r.toContext) :
    Stable et (callback H e r nc).toContext := by
  unfold callback
  split
  · exact execAll_stable et _ _ h
  · exact h

theorem deliver_stable (H : Handlers σ) (e : Event) (et : Kind → EventTypeIndex)
    (cbs : List NamedCallback) (r : Run σ) (h : Stable et r.toContext) :
    Stable et (deliver H e cbs r).toContext := by
  induction cbs generalizing r with
  | nil => exact h
  | cons nc rest ih => exact ih _ (callback_stable H e et r nc h)

/-! ## Which handlers run -/

theorem callback_fired (H : Handlers σ) (e : Event) (r : Run σ) (nc : NamedCallback) :
    (callback H e r nc).fired =
      r.fired ++ (if r.eventType e.kind = r.eventType nc.2.EventType then [(nc, e)] else []) := by
  unfold callback
  split <;> simp

/-- The handlers run by a delivery are listeners of the delivered list, each at most once,
in the order of the list. -/
theorem deliver_fired_sublist (H : Handlers σ) (e : Event) (cbs : List NamedCallback)
    (r : Run σ) :
    ∃ X, (deliver H e cbs r).fired = r.fired ++ X ∧ List.Sublist X (cbs.map (fun nc => (nc, e))) := by
  induction cbs generalizing r with
  | nil => exact ⟨[], by simp [deliver], List.Sublist.refl _⟩
  | cons nc rest ih =>
    obtain ⟨X, hX, hs⟩ := ih (callback H e r nc)
    have hd : deliver H e (nc :: rest) r = deliver H e rest (callback H e r nc) := rfl
    rw [hd, hX, callback_fired]
    by_cases hm : r.eventType e.kind = r.eventType nc.2.EventType
    · refine ⟨(nc, e) :: X, by simp [hm], ?_⟩
      simpa using hs
    · refine ⟨X, by simp [hm], ?_⟩
      simpa using List.Sublist.cons _ hs

/-- With the tags of the listeners and of the event fixed (`et`), a delivery runs exactly the
listeners whose tag is the tag of the event, in the order of the list. -/
theorem deliver_fired_exact (H : Handlers σ) (e : Event) (et : Kind → EventTypeIndex)
    (cbs : List NamedCallback) (hcbs : ∀ nc ∈ cbs, et nc.2.EventType ≠ 0) (r : Run σ)
    (hst : Stable et r.toContext) (he : r.eventType e.kind = et e.kind) :
    (deliver H e cbs r).fired =
      r.fired ++ (cbs.filter (fun nc => decide (et e.kind = et nc.2.EventType))).map
        (fun nc => (nc, e)) ∧
    (deliver H e cbs r).eventType e.kind = et e.kind := by
  induction cbs generalizing r with
  | nil => exact ⟨by simp [deliver], he⟩
  | cons nc rest ih =>
    have hnc : r.eventType nc.2.EventType = et nc.2.EventType :=
      hst _ (hcbs nc (List.mem_cons_self _ _))
    have hst1 := callback_stable H e et r nc hst
    have he1 : (callback H e r nc).eventType e.kind = et e.kind := by
      by_cases hm : et e.kind = et nc.2.EventType
      · have hz : et e.kind ≠ 0 := by rw [hm]; exact hcbs nc (List.mem_cons_self _ _)
        exact hst1 _ hz
      · have : ¬ r.eventType e.kind = r.eventType nc.2.EventType := by rw [he, hnc]; exact hm
        unfold callback
        rw [if_neg this]
        exact he
    obtain ⟨h1, h2⟩ := ih (fun x hx => hcbs x (List.mem_cons_of_mem _ hx)) _ hst1 he1
    have hd : deliver H e (nc :: rest) r = deliver H e rest (callback H e r nc) := rfl
    rw [hd]
    refine ⟨?_, h2⟩
    rw [h1, callback_fired, he, hnc]
    by_cases hm : et e.kind = et nc.2.EventType <;> simp [hm, List.filter_cons]

/-! ## `Invoke` -/

theorem getD_of_mem_entries {β : Type} (m : KeyMap EventTypeIndex β) (t : EventTypeIndex)
    (v d : β) (h : (t, v) ∈ m.entries) : m.getD t d = v := by
  unfold KeyMap.getD KeyMap.find
  rw [mem_lookupL t v m.entries m.nodup h]
  rfl

theorem mem_activeListeners (d : EventDispatcher) (nc : NamedCallback) :
    nc ∈ activeListeners d ↔ ∃ t, nc ∈ d.callbacks.getD t [] := by
  unfold activeListeners
  simp only [List.mem_flatten, List.mem_map]
  constructor
  · rintro ⟨l, ⟨p, hp, rfl⟩, hnc⟩
    exact ⟨p.1, by rw [getD_of_mem_entries d.callbacks p.1 p.2 [] hp]; exact hnc⟩
  · rintro ⟨t, ht⟩
    unfold KeyMap.getD KeyMap.find at ht
    cases hl : lookupL t d.callbacks.entries with
    | none => rw [hl] at ht; simp at ht
    | some l =>
      rw [hl] at ht
      exact ⟨l, ⟨(t, l), lookupL_mem _ _ _ hl, rfl⟩, ht⟩

theorem filter_flatten_eq_lookup (p : NamedCallback → Bool) (t : EventTypeIndex)
    (entries : List (EventTypeIndex × CallbackList)) (hn : (entries.map Prod.fst).Nodup)
    (h : ∀ q ∈ entries, ∀ nc ∈ q.2, (p nc = true ↔ q.1 = t)) :
    ((entries.map Prod.snd).flatten).filter p = (lookupL t entries).getD [] := by
  induction entries with
  | nil => simp [lookupL]
  | cons q qs ih =>
    simp only [List.map_cons, List.nodup_cons] at hn
    have ih' := ih hn.2 (fun x hx => h x (List.mem_cons_of_mem _ hx))
    simp only [List.map_cons, List.flatten_cons, List.filter_append, ih']
    by_cases hq : q.1 = t
    · have hall : q.2.filter p = q.2 := by
        rw [List.filter_eq_self]
        intro nc hnc
        exact (h q (List.mem_cons_self _ _) nc hnc).2 hq
      have hnone : lookupL t qs = none := by
        rw [lookupL_eq_none_iff]; exact hq ▸ hn.1
      simp [lookupL, hq, hall, hnone]
    · have hnil : q.2.filter p = [] := by
        rw [List.filter_eq_nil_iff]
        intro nc hnc hp
        exact hq ((h q (List.mem_cons_self _ _) nc hnc).1 hp)
      simp [lookupL, hq, hnil]

theorem Stored_flush (c : Context) (h : Stored c) :
    Stored { c with self := RemoveQueuedEvents c.self } := by
  intro t nc hnc
  rcases hnc with hnc | hnc
  · have h1 : nc ∈ (RemoveQueuedEvents c.self).callbacks.getD t [] := hnc
    rw [flush_getD c.self t, List.mem_append] at h1
    rcases h1 with h1 | h1
    · exact h t nc (Or.inl (List.mem_filter.1 h1).1)
    · exact h t nc (Or.inr h1)
  · have h1 : nc ∈ (RemoveQueuedEvents c.self).toAddCache.getD t [] := hnc
    rw [flush_pending_empty c.self t] at h1
    simp at h1

theorem firedSince_append (r r' : Run σ) (X : List (NamedCallback × Event))
    (h : r'.fired = r.fired ++ X) : firedSince r r' = X := by
  simp [firedSince, h]

/-- C1.  In a state where distinct registered classes have distinct tags (and every listener
is filed under the tag of its class, as `AddEventListener` does), `Invoke(E)` for an event of
class `K` runs the handlers of the listeners that are active after the flush under the tag
of `K`, each once, in their order in that list (the order of registration).  An active
listener is in that list exactly when it was added for `K`, and no handler of a listener
added for another class is run. -/
theorem Invoke_runs_matching (H : Handlers σ) (e : Event) (r : Run σ)
    (hd : TagsDistinct r.eventType) (hs : Stored r.toContext) :
    firedSince r (Invoke H e r) =
      ((RemoveQueuedEvents r.self).callbacks.getD (r.eventType e.kind) []).map
        (fun nc => (nc, e)) ∧
    (∀ nc ∈ activeListeners (RemoveQueuedEvents r.self),
      (nc ∈ (RemoveQueuedEvents r.self).callbacks.getD (r.eventType e.kind) [] ↔
        nc.2.EventType = e.kind)) ∧
    (∀ nc ev, nc.2.EventType ≠ e.kind → (nc, ev) ∉ firedSince r (Invoke H e r)) := by
  have hs' : ∀ t nc, nc ∈ (RemoveQueuedEvents r.self).callbacks.getD t [] →
      r.eventType nc.2.EventType = t ∧ t ≠ 0 :=
    fun t nc h => Stored_flush r.toContext hs t nc (Or.inl h)
  have hact : ∀ nc ∈ activeListeners (RemoveQueuedEvents r.self),
      ∃ t, nc ∈ (RemoveQueuedEvents r.self).callbacks.getD t [] ∧
        r.eventType nc.2.EventType = t ∧ t ≠ 0 := by
    intro nc hnc
    obtain ⟨t, ht⟩ := (mem_activeListeners _ nc).1 hnc
    exact ⟨t, ht, hs' t nc ht⟩
  have hiff : ∀ nc ∈ activeListeners (RemoveQueuedEvents r.self),
      (nc ∈ (RemoveQueuedEvents r.self).callbacks.getD (r.eventType e.kind) [] ↔
        nc.2.EventType = e.kind) := by
    intro nc hnc
    constructor
    · intro hin
      have h1 := hs' _ nc hin
      exact hd _ _ h1.1 (by rw [h1.1]; exact h1.2)
    · intro hk
      obtain ⟨t, ht, htag, _⟩ := hact nc hnc
      rw [← hk, htag]; exact ht
  have hfired : firedSince r (Invoke H e r) =
      ((RemoveQueuedEvents r.self).callbacks.getD (r.eventType e.kind) []).map
        (fun nc => (nc, e)) := by
    have hex := (deliver_fired_exact H e r.eventType (activeListeners r.flush.self)
      (fun nc hnc => by
        obtain ⟨t, _, htag, hz⟩ := hact nc hnc
        rw [htag]; exact hz)
      r.flush (fun _ _ => rfl) rfl).1
    have hInv : Invoke H e r = deliver H e (activeListeners r.flush.self) r.flush :=
      ProcessEvent_eq_deliver H e r.flush
    rw [← hInv] at hex
    rw [firedSince_append r (Invoke H e r) _ hex]
    congr 1
    exact filter_flatten_eq_lookup _ (r.eventType e.kind)
      (RemoveQueuedEvents r.self).callbacks.entries (RemoveQueuedEvents r.self).callbacks.nodup
      (fun q hq nc hnc => by
        have hg := getD_of_mem_entries (RemoveQueuedEvents r.self).callbacks q.1 q.2 [] hq
        have h1 := hs' q.1 nc (by rw [hg]; exact hnc)
        simp only [decide_eq_true_eq]
        rw [h1.1]
        exact eq_comm)
  refine ⟨hfired, hiff, ?_⟩
  intro nc ev hk hmem
  rw [hfired, List.mem_map] at hmem
  obtain ⟨x, hx, hxe⟩ := hmem
  have hxnc : x = nc := congrArg Prod.fst hxe
  subst hxnc
  exact hk ((hiff x ((mem_activeListeners _ x).2 ⟨_, hx⟩)).1 hx)

theorem tickResize_eventType : tickResize.eventType = fun k => if k = 2 then 2 else if k = 1 then 1 else 0 := by
  funext k
  simp [tickResize, fresh, AddEventListener, AddCallbackImpl, RegisterEventType_eventType, freshIndex, KeyMap.find, RegisterEventType_entries,
    EventDispatcher.init, KeyMap.empty, lookupL, Function.update, KeyMap.size]

theorem tickResize_distinct : TagsDistinct tickResize.eventType := by
  rw [tickResize_eventType]
  intro k₁ k₂ h hz
  simp only at h hz
  split_ifs at h hz <;> first | (subst_vars; rfl) | simp_all

theorem tickResize_stored : Stored tickResize.toContext := by
  intro t nc h
  have hc : tickResize.self.callbacks.getD t [] = [] := rfl
  have ha : tickResize.self.toAddCache.getD t [] =
      if 1 = t then [("A", ⟨1, 10⟩)] else if 2 = t then [("B", ⟨2, 11⟩)] else [] := by
    show (lookupL t [(1, [(("A", ⟨1, 10⟩) : NamedCallback)]), (2, [("B", ⟨2, 11⟩)])]).getD [] = _
    simp only [lookupL]
    split_ifs <;> rfl
  rw [hc, ha] at h
  rw [tickResize_eventType]
  simp only [List.not_mem_nil, false_or] at h
  split_ifs at h with h1 h2
  · simp only [List.mem_singleton] at h; subst h; subst h1; simp
  · simp only [List.mem_singleton] at h; subst h; subst h2; simp
  · simp at h

/-- C1, at the scenario of the specification: classes `Tick` (1) and `Resize` (2) with tags 1
and 2, listener "A" for `Tick` and "B" for `Resize`; `Invoke(Tick)` runs "A" once and
does not run "B". -/
theorem Invoke_runs_matching_witness :
    TagsDistinct tickResize.eventType ∧ Stored tickResize.toContext ∧
    firedSince tickResize (Invoke quiet ⟨1, 0⟩ tickResize) = [(("A", ⟨1, 10⟩), ⟨1, 0⟩)] :=
  ⟨tickResize_distinct, tickResize_stored,
    (Invoke_runs_matching quiet ⟨1, 0⟩ tickResize tickResize_distinct tickResize_stored).1.trans
      (by decide)⟩
/-! ## Listeners added or removed while a dispatch is running -/

theorem mem_of_mem_firedSince_Invoke (H : Handlers σ) (e : Event) (r : Run σ)
    (p : NamedCallback × Event) (hp : p ∈ firedSince r (Invoke H e r)) :
    p.1 ∈ activeListeners (RemoveQueuedEvents r.self) ∧ p.2 = e := by
  obtain ⟨X, hX, hs⟩ := deliver_fired_sublist H e (activeListeners r.flush.self) r.flush
  have hInv : Invoke H e r = deliver H e (activeListeners r.flush.self) r.flush :=
    ProcessEvent_eq_deliver H e r.flush
  rw [← hInv] at hX
  rw [firedSince_append r (Invoke H e r) X hX] at hp
  have := hs.subset hp
  rw [List.mem_map] at this
  obtain ⟨nc, hnc, rfl⟩ := this
  exact ⟨hnc, rfl⟩

/-- C2.  The handlers run by `Invoke(E)` belong to listeners that are active right after the
flush at the start of that `Invoke`, each of them at most once and in table order; every
listener added before (pending at the time of the call) is among these active listeners.
The calls made by handlers during the dispatch do not change the active table: a listener
that a handler adds is filed in `toAddCache` only, and a listener that is not active after
the flush is not run. -/
theorem Invoke_only_flushed_listeners (H : Handlers σ) (e : Event) (r : Run σ) :
    List.Sublist (firedSince r (Invoke H e r))
      ((activeListeners (RemoveQueuedEvents r.self)).map (fun nc => (nc, e))) ∧
    (∀ t, ∀ nc ∈ r.self.toAddCache.getD t [],
      nc ∈ activeListeners (RemoveQueuedEvents r.self)) ∧
    (Invoke H e r).self.callbacks = (RemoveQueuedEvents r.self).callbacks ∧
    (∀ (c : Context) (K : Kind) (name : String) (func : Nat),
      ((Call.AddEventListener K name func).exec c).self.callbacks = c.self.callbacks ∧
      (name, { EventType := K, func := func }) ∈
        ((Call.AddEventListener K name func).exec c).self.toAddCache.getD
          (((Call.AddEventListener K name func).exec c).eventType K) []) ∧
    (∀ nc ev, nc ∉ activeListeners (RemoveQueuedEvents r.self) →
      (nc, ev) ∉ firedSince r (Invoke H e r)) := by
  have hInv : Invoke H e r = deliver H e (activeListeners r.flush.self) r.flush :=
    ProcessEvent_eq_deliver H e r.flush
  refine ⟨?_, ?_, ?_, ?_, ?_⟩
  · obtain ⟨X, hX, hs⟩ := deliver_fired_sublist H e (activeListeners r.flush.self) r.flush
    rw [← hInv] at hX
    rw [firedSince_append r (Invoke H e r) X hX]
    exact hs
  · intro t nc hnc
    rw [mem_activeListeners]
    refine ⟨t, ?_⟩
    rw [flush_getD r.self t]
    exact List.mem_append_right _ hnc
  · rw [hInv, deliver_callbacks]; rfl
  · intro c K name func
    refine ⟨exec_callbacks c _, ?_⟩
    show _ ∈ ((RegisterEventType K c).self.toAddCache.alter _ [] _).getD _ []
    rw [KeyMap.getD_alter]
    simp [Call.exec, AddEventListener_eventType]
  · intro nc ev hnc hmem
    exact hnc (mem_of_mem_firedSince_Invoke H e r (nc, ev) hmem).1

theorem exec_toRemoveCache_mono (c : Context) (call : Call) (n : String)
    (h : n ∈ c.self.toRemoveCache) : n ∈ (call.exec c).self.toRemoveCache := by
  cases call with
  | AddEventListener K name func =>
    show n ∈ (RegisterEventType K c).self.toRemoveCache
    rw [(RegisterEventType_frame K c).2.2.2]; exact h
  | RemoveEventListener name => exact List.mem_append_left _ h
  | AddEvent event => exact h
  | RegisterEventType K =>
    show n ∈ (RegisterEventType K c).self.toRemoveCache
    rw [(RegisterEventType_frame K c).2.2.2]; exact h

theorem execAll_toRemoveCache_mono (calls : List Call) (c : Context) (n : String)
    (h : n ∈ c.self.toRemoveCache) : n ∈ (execAll calls c).self.toRemoveCache := by
  induction calls generalizing c with
  | nil => exact h
  | cons call rest ih => exact ih _ (exec_toRemoveCache_mono c call n h)

theorem execAll_removes (calls : List Call) (c : Context) (n : String)
    (h : Call.RemoveEventListener n ∈ calls) : n ∈ (execAll calls c).self.toRemoveCache := by
  induction calls generalizing c with
  | nil => simp at h
  | cons call rest ih =>
    rcases List.mem_cons.1 h with h1 | h1
    · subst h1
      exact execAll_toRemoveCache_mono rest _ n (by simp [Call.exec, RemoveEventListener])
    · exact ih _ h1

theorem callback_toRemoveCache_mono (H : Handlers σ) (e : Event) (r : Run σ)
    (nc : NamedCallback) (n : String) (h : n ∈ r.self.toRemoveCache) :
    n ∈ (callback H e r nc).self.toRemoveCache := by
  unfold callback
  split
  · exact execAll_toRemoveCache_mono _ _ n h
  · exact h

theorem deliver_toRemoveCache_mono (H : Handlers σ) (e : Event) (cbs : List NamedCallback)
    (r : Run σ) (n : String) (h : n ∈ r.self.toRemoveCache) :
    n ∈ (deliver H e cbs r).self.toRemoveCache := by
  induction cbs generalizing r with
  | nil => exact h
  | cons nc rest ih => exact ih _ (callback_toRemoveCache_mono H e r nc n h)

/-- A listener of the delivered list whose tag is the tag of the event is run, whatever
the handlers before it did. -/
theorem deliver_fires (H : Handlers σ) (e : Event) (et : Kind → EventTypeIndex)
    (hz : et e.kind ≠ 0) (x : NamedCallback) (hxm : et x.2.EventType = et e.kind)
    (cbs : List NamedCallback) (hx : x ∈ cbs) (r : Run σ) (hst : Stable et r.toContext) :
    ∃ X, (deliver H e cbs r).fired = r.fired ++ X ∧ (x, e) ∈ X := by
  induction cbs generalizing r with
  | nil => simp at hx
  | cons nc rest ih =>
    have hd : deliver H e (nc :: rest) r = deliver H e rest (callback H e r nc) := rfl
    rw [hd]
    rcases List.mem_cons.1 hx with h1 | h1
    · subst h1
      obtain ⟨Y, hY, _⟩ := deliver_fired_sublist H e rest (callback H e r x)
      have hm : r.eventType e.kind = r.eventType x.2.EventType := by
        rw [hst _ hz, hst _ (by rw [hxm]; exact hz), hxm]
      refine ⟨(x, e) :: Y, ?_, List.mem_cons_self _ _⟩
      rw [hY, callback_fired]
      simp [hm]
    · obtain ⟨X, hX, hmem⟩ := ih h1 _ (callback_stable H e et r nc hst)
      refine ⟨(if r.eventType e.kind = r.eventType nc.2.EventType then [(nc, e)] else []) ++ X,
        ?_, List.mem_append_right _ hmem⟩
      rw [hX, callback_fired, List.append_assoc]

/-- When a listener of the delivered list, whose tag is the tag of the event, has a handler
that calls `RemoveEventListener(n)`, the name `n` is in `toRemoveCache` after the delivery. -/
theorem deliver_removes (H : Handlers σ) (e : Event) (et : Kind → EventTypeIndex)
    (hz : et e.kind ≠ 0) (y : NamedCallback) (hym : et y.2.EventType = et e.kind) (n : String)
    (hrem : ∀ u, Call.RemoveEventListener n ∈ (H y.2.func u e).2)
    (cbs : List NamedCallback) (hy : y ∈ cbs) (r : Run σ) (hst : Stable et r.toContext) :
    n ∈ (deliver H e cbs r).self.toRemoveCache := by
  induction cbs generalizing r with
  | nil => simp at hy
  | cons nc rest ih =>
    have hd : deliver H e (nc :: rest) r = deliver H e rest (callback H e r nc) := rfl
    rw [hd]
    rcases List.mem_cons.1 hy with h1 | h1
    · subst h1
      apply deliver_toRemoveCache_mono
      have hm : r.eventType e.kind = r.eventType y.2.EventType := by
        rw [hst _ hz, hst _ (by rw [hym]; exact hz), hym]
      unfold callback
      rw [if_pos hm]
      exact execAll_removes _ _ n (hrem r.user)
    · exact ih h1 _ (callback_stable H e et r nc hst)

theorem dispatchPass_stable (H : Handlers σ) (et : Kind → EventTypeIndex)
    (cbs : List NamedCallback) (es : List Event) (r : Run σ) (hst : Stable et r.toContext) :
    Stable et (dispatchPass H cbs es r).toContext := by
  induction es generalizing r with
  | nil => exact hst
  | cons e rest ih => exact ih _ (deliver_stable H e et cbs r hst)

theorem exec_events (c : Context) (call : Call) (h : ∀ ev, call ≠ Call.AddEvent ev) :
    (call.exec c).self.events = c.self.events := by
  cases call with
  | AddEventListener K name func => exact (RegisterEventType_frame K c).1
  | RemoveEventListener name => rfl
  | AddEvent event => exact absurd rfl (h event)
  | RegisterEventType K => exact (RegisterEventType_frame K c).1

theorem execAll_events (calls : List Call) (c : Context)
    (h : ∀ ev, Call.AddEvent ev ∉ calls) : (execAll calls c).self.events = c.self.events := by
  induction calls generalizing c with
  | nil => rfl
  | cons call rest ih =>
    show (execAll rest (call.exec c)).self.events = _
    rw [ih _ (fun ev hev => h ev (List.mem_cons_of_mem _ hev)),
      exec_events c call (fun ev hev => h ev (hev ▸ List.mem_cons_self _ _))]

theorem callback_events (H : Handlers σ) (hH : NoEnqueue H) (e : Event) (r : Run σ)
    (nc : NamedCallback) : (callback H e r nc).self.events = r.self.events := by
  unfold callback
  split
  · exact execAll_events _ _ (fun ev => hH _ _ _ ev)
  · rfl

theorem deliver_events (H : Handlers σ) (hH : NoEnqueue H) (e : Event)
    (cbs : List NamedCallback) (r : Run σ) :
    (deliver H e cbs r).self.events = r.self.events := by
  induction cbs generalizing r with
  | nil => rfl
  | cons nc rest ih =>
    show (deliver H e rest (callback H e r nc)).self.events = _
    rw [ih, callback_events H hH]

theorem InvokeAllLoop_eq (H : Handlers σ) (hH : NoEnqueue H) (cbs : List NamedCallback)
    (fuel i : Nat) (r : Run σ) (hc : activeListeners r.self = cbs)
    (hf : r.self.events.length ≤ i + fuel) :
    InvokeAllLoop H fuel i r = some (dispatchPass H cbs (r.self.events.drop i) r) := by
  induction fuel generalizing i r with
  | zero =>
    have hi : ¬ i < r.self.events.length := by omega
    have hd : r.self.events.drop i = [] := List.drop_eq_nil_of_le (by omega)
    simp [InvokeAllLoop, hi, hd, dispatchPass]
  | succ fuel ih =>
    unfold InvokeAllLoop
    by_cases hi : i < r.self.events.length
    · rw [dif_pos hi]
      have hp : ProcessEvent H (r.self.events.get ⟨i, hi⟩) r =
          deliver H (r.self.events.get ⟨i, hi⟩) cbs r := by
        rw [ProcessEvent_eq_deliver, hc]
      have hev : (deliver H (r.self.events.get ⟨i, hi⟩) cbs r).self.events = r.self.events :=
        deliver_events H hH _ _ _
      have hcb : activeListeners (deliver H (r.self.events.get ⟨i, hi⟩) cbs r).self = cbs := by
        unfold activeListeners
        rw [deliver_callbacks]
        exact hc
      rw [hp, ih (i + 1) _ hcb (by rw [hev]; omega), hev]
      have hdrop : r.self.events.drop i =
          r.self.events.get ⟨i, hi⟩ :: r.self.events.drop (i + 1) := by
        rw [List.drop_eq_getElem_cons hi]; rfl
      rw [hdrop]
      rfl
    · rw [dif_neg hi]
      have hd : r.self.events.drop i = [] := List.drop_eq_nil_of_le (by omega)
      simp [hd, dispatchPass]

/-- C4.  When no handler enqueues, `InvokeAll` (given fuel for one iteration per queued
event) returns: it flushes once, then delivers the queued events in queue order, each one to
the whole list of listeners that are active after that flush before the next one is started,
and leaves the queue empty. -/
theorem InvokeAll_fifo (H : Handlers σ) (hH : NoEnqueue H) (r : Run σ) (fuel : Nat)
    (hf : r.self.events.length ≤ fuel) :
    InvokeAll H fuel r =
      some (dispatchPass H (activeListeners (RemoveQueuedEvents r.self)) r.self.events
        r.flush).clearEvents ∧
    ∀ r', InvokeAll H fuel r = some r' → r'.self.events = [] := by
  have h1 : InvokeAll H fuel r =
      some (dispatchPass H (activeListeners (RemoveQueuedEvents r.self)) r.self.events
        r.flush).clearEvents := by
    unfold InvokeAll
    rw [InvokeAllLoop_eq H hH (activeListeners (RemoveQueuedEvents r.self)) fuel 0 r.flush rfl
      (by simpa [Run.flush, RemoveQueuedEvents] using hf)]
    rfl
  refine ⟨h1, ?_⟩
  intro r' hr'
  rw [h1] at hr'
  cases hr'
  rfl

/-- C4, at an instance: events of classes 1, 2, 1 are queued while "A" listens to class 1
and "B" to class 2; the handlers run in queue order. -/
theorem InvokeAll_fifo_witness :
    NoEnqueue quiet ∧ threeQueued.self.events.length ≤ 3 ∧
    (InvokeAll quiet 3 threeQueued).map (fun r => (r.fired, r.self.events)) =
      some ([(("A", ⟨1, 10⟩), ⟨1, 1⟩), (("B", ⟨2, 11⟩), ⟨2, 2⟩), (("A", ⟨1, 10⟩), ⟨1, 3⟩)],
        []) :=
  have hq : NoEnqueue quiet := fun _ _ _ _ h => by simp [quiet] at h
  ⟨hq, by decide, by
    rw [(InvokeAll_fifo quiet hq threeQueued 3 (by decide)).1]
    decide⟩

/-! ## `RemoveEventListener` -/

/-- C7.  `RemoveEventListener(name)` only puts `name` at the end of `toRemoveCache`: the
active table, `toAddCache`, the queue, the registry and the statics are unchanged.  The
active table is not written by any call a handler can make, nor by `ProcessEvent`: it
changes only in `RemoveQueuedEvents`. -/
theorem RemoveEventListener_spec (H : Handlers σ) (name : String) (d : EventDispatcher) :
    (RemoveEventListener name d).toRemoveCache = d.toRemoveCache ++ [name] ∧
    (RemoveEventListener name d).callbacks = d.callbacks ∧
    (RemoveEventListener name d).toAddCache = d.toAddCache ∧
    (RemoveEventListener name d).events = d.events ∧
    (RemoveEventListener name d).typeMap = d.typeMap ∧
    (∀ c : Context, ((Call.RemoveEventListener name).exec c).eventType = c.eventType) ∧
    (∀ (c : Context) (calls : List Call), (execAll calls c).self.callbacks = c.self.callbacks) ∧
    (∀ (e : Event) (r : Run σ), (ProcessEvent H e r).self.callbacks = r.self.callbacks) :=
  ⟨rfl, rfl, rfl, rfl, rfl, fun _ => rfl, fun c calls => execAll_callbacks calls c,
    fun e r => ProcessEvent_callbacks H e r⟩

/-! ## Tags -/

theorem RegisterEventType_fresh (K : Kind) (c : Context) (h0 : c.eventType K = 0)
    (hn : c.self.typeMap.find K = none) :
    (RegisterEventType K c).eventType =
      Function.update c.eventType K (c.self.typeMap.size + 1) ∧
    (RegisterEventType K c).self.typeMap.entries =
      c.self.typeMap.entries ++ [(K, c.self.typeMap.size + 1)] := by
  constructor
  · rw [RegisterEventType_eventType]
    simp [h0, freshIndex, hn]
  · rw [RegisterEventType_entries]
    simp [h0, hn]

theorem registerAll_aux (kinds : List Kind) (c : Context) (hnd : kinds.Nodup)
    (hz : ∀ k ∈ kinds, c.eventType k = 0)
    (habs : ∀ k ∈ kinds, c.self.typeMap.find k = none) :
    (∀ i (h : i < kinds.length),
      (registerAll kinds c).eventType (kinds.get ⟨i, h⟩) = c.self.typeMap.size + i + 1 ∧
      (registerAll kinds c).self.typeMap.find (kinds.get ⟨i, h⟩) =
        some (c.self.typeMap.size + i + 1)) ∧
    (∀ k, k ∉ kinds → (registerAll kinds c).eventType k = c.eventType k) ∧
    (∀ k v, c.self.typeMap.find k = some v →
      (registerAll kinds c).self.typeMap.find k = some v) := by
  induction kinds generalizing c with
  | nil => exact ⟨fun i h => absurd h (Nat.not_lt_zero i), fun _ _ => rfl, fun _ _ h => h⟩
  | cons K ks ih =>
    have hK0 := hz K (List.mem_cons_self _ _)
    have hKn := habs K (List.mem_cons_self _ _)
    obtain ⟨het, hent⟩ := RegisterEventType_fresh K c hK0 hKn
    have hKks : K ∉ ks := (List.nodup_cons.1 hnd).1
    have hsize : (RegisterEventType K c).self.typeMap.size = c.self.typeMap.size + 1 := by
      simp [KeyMap.size, hent]
    have hfindK : (RegisterEventType K c).self.typeMap.find K =
        some (c.self.typeMap.size + 1) := by
      have := RegisterEventType_find K c
      rw [het] at this
      simpa using this
    have hpers : ∀ k v, c.self.typeMap.find k = some v →
        (RegisterEventType K c).self.typeMap.find k = some v := by
      intro k v hv
      unfold KeyMap.find
      rw [hent]
      exact lookupL_append_some _ _ _ _ hv
    obtain ⟨ih1, ih2, ih3⟩ := ih (RegisterEventType K c) (List.nodup_cons.1 hnd).2
      (fun k hk => by
        have hne : k ≠ K := fun e => hKks (e ▸ hk)
        rw [het, Function.update_noteq hne]
        exact hz k (List.mem_cons_of_mem _ hk))
      (fun k hk => by
        have hne : ¬ K = k := fun e => hKks (e ▸ hk)
        unfold KeyMap.find
        rw [hent, lookupL_append_none _ _ _ (habs k (List.mem_cons_of_mem _ hk))]
        simp [lookupL, hne])
    have hstep : registerAll (K :: ks) c = registerAll ks (RegisterEventType K c) := rfl
    rw [hstep]
    refine ⟨?_, ?_, ?_⟩
    · intro i h
      cases i with
      | zero =>
        refine ⟨?_, ?_⟩
        · show (registerAll ks (RegisterEventType K c)).eventType K = _
          rw [ih2 K hKks, het]; simp
        · exact ih3 K _ hfindK
      | succ j =>
        have hj : j < ks.length := by simpa using h
        have := ih1 j hj
        rw [hsize] at this
        have e1 : c.self.typeMap.size + 1 + j + 1 = c.self.typeMap.size + (j + 1) + 1 := by
          omega
        rw [e1] at this
        exact this
    · intro k hk
      have hk1 : k ∉ ks := fun h => hk (List.mem_cons_of_mem _ h)
      have hne : k ≠ K := fun e => hk (e ▸ List.mem_cons_self _ _)
      rw [ih2 k hk1, het, Function.update_noteq hne]
    · intro k v hv
      exact ih3 k v (hpers k v hv)

/-- C10.  On a dispatcher with an empty registry, registering pairwise distinct classes whose
statics are all `0` gives the `i`-th of them (counting from 1) the tag `i`, and records it in
the registry; none of them is left with tag `0`. -/
theorem registerAll_tags (kinds : List Kind) (c : Context)
    (hempty : c.self.typeMap.entries = []) (hnd : kinds.Nodup)
    (hz : ∀ k ∈ kinds, c.eventType k = 0) :
    (∀ i (h : i < kinds.length),
      (registerAll kinds c).eventType (kinds.get ⟨i, h⟩) = i + 1 ∧
      (registerAll kinds c).self.typeMap.find (kinds.get ⟨i, h⟩) = some (i + 1)) ∧
    (∀ k ∈ kinds, (registerAll kinds c).eventType k ≠ 0) := by
  have habs : ∀ k ∈ kinds, c.self.typeMap.find k = none := by
    intro k _
    simp [KeyMap.find, hempty, lookupL]
  have hsz : c.self.typeMap.size = 0 := by simp [KeyMap.size, hempty]
  obtain ⟨h1, _, _⟩ := registerAll_aux kinds c hnd hz habs
  have key : ∀ i (h : i < kinds.length),
      (registerAll kinds c).eventType (kinds.get ⟨i, h⟩) = i + 1 ∧
      (registerAll kinds c).self.typeMap.find (kinds.get ⟨i, h⟩) = some (i + 1) := by
    intro i h
    have := h1 i h
    rw [hsz, Nat.zero_add] at this
    exact this
  refine ⟨key, ?_⟩
  intro k hk
  obtain ⟨n, hn⟩ := List.get_of_mem hk
  rw [← hn, (key n.1 n.2).1]
  exact Nat.succ_ne_zero _

/-- C10, at an instance: classes 5, 3, 8 registered in this order on a fresh dispatcher get
the tags 1, 2, 3. -/
theorem registerAll_tags_witness :
    fresh.self.typeMap.entries = [] ∧ [5, 3, 8].Nodup ∧
    (∀ k ∈ [5, 3, 8], fresh.eventType k = 0) ∧
    (registerAll [5, 3, 8] fresh.toContext).eventType 5 = 1 ∧
    (registerAll [5, 3, 8] fresh.toContext).eventType 3 = 2 ∧
    (registerAll [5, 3, 8] fresh.toContext).eventType 8 = 3 :=
  have h := (registerAll_tags [5, 3, 8] fresh.toContext rfl (by decide) (fun _ _ => rfl)).1
  ⟨rfl, by decide, fun _ _ => rfl, (h 0 (by decide)).1, (h 1 (by decide)).1,
    (h 2 (by decide)).1⟩

/-! ## Several dispatchers -/

theorem run_registry_of_call (call : WorldCall) (c : Context) :
    ∃ K, (call.run c).eventType = (RegisterEventType K c).eventType ∧
      (call.run c).self.typeMap = (RegisterEventType K c).self.typeMap := by
  cases call with
  | RegisterEventType i K => exact ⟨K, rfl, rfl⟩
  | AddEventListener i K name func => exact ⟨K, rfl, rfl⟩

theorem RegistryExact_init : RegistryExact (fun _ => 0) EventDispatcher.init.typeMap :=
  ⟨fun _ h => absurd rfl h, fun _ _ h => by simp [EventDispatcher.init, KeyMap.empty,
    KeyMap.find, lookupL] at h, rfl⟩

theorem RegistryExact_RegisterEventType (K : Kind) (c : Context)
    (h : RegistryExact c.eventType c.self.typeMap) :
    RegistryExact (RegisterEventType K c).eventType (RegisterEventType K c).self.typeMap := by
  obtain ⟨ha, hb, hc⟩ := h
  by_cases h0 : c.eventType K = 0
  · have hn : c.self.typeMap.find K = none := by
      cases hf : c.self.typeMap.find K with
      | none => rfl
      | some v =>
        exfalso
        have hv : v = 0 := by rw [← hb K v hf]; exact h0
        have hmem : v ∈ c.self.typeMap.entries.map Prod.snd :=
          List.mem_map.2 ⟨(K, v), lookupL_mem _ _ _ hf, rfl⟩
        rw [hc, List.mem_range'_1, hv] at hmem
        exact absurd hmem.1 (by decide)
    obtain ⟨het, hent⟩ := RegisterEventType_fresh K c h0 hn
    refine ⟨?_, ?_, ?_⟩
    · intro k hk
      by_cases hkK : k = K
      · subst hkK; exact RegisterEventType_find k c
      · rw [het, Function.update_noteq hkK] at hk ⊢
        unfold KeyMap.find
        rw [hent]
        exact lookupL_append_some _ _ _ _ (ha k hk)
    · intro k v hv
      unfold KeyMap.find at hv
      rw [hent] at hv
      cases hf : c.self.typeMap.find k with
      | none =>
        rw [lookupL_append_none _ _ _ hf] at hv
        by_cases hkK : K = k
        · subst hkK
          simp only [lookupL, if_true, Option.some.injEq] at hv
          rw [het, Function.update_same]; exact hv
        · simp [lookupL, hkK] at hv
      | some w =>
        rw [lookupL_append_some _ _ _ _ hf] at hv
        have hkK : k ≠ K := fun e => by rw [e, hn] at hf; cases hf
        rw [het, Function.update_noteq hkK, hb k w hf]
        exact Option.some.inj hv
    · rw [hent, List.map_append, hc, List.length_append]
      simp only [List.map_cons, List.map_nil, List.length_singleton, KeyMap.size]
      rw [List.range'_1_concat, Nat.add_comm 1]
  · have hf := ha K h0
    have hent : (RegisterEventType K c).self.typeMap.entries = c.self.typeMap.entries := by
      rw [RegisterEventType_entries]
      simp only [h0, if_false]
      unfold alterL
      have hl : lookupL K c.self.typeMap.entries = some (c.eventType K) := hf
      rw [hl]
      exact modifyL_same _ _ _ (fun v hv => by rw [hl] at hv; exact Option.some.inj hv)
    have het : (RegisterEventType K c).eventType = c.eventType := by
      rw [RegisterEventType_eventType]; simp [h0]
    have hm : (RegisterEventType K c).self.typeMap = c.self.typeMap := KeyMap.ext_entries hent
    rw [het, hm]
    exact ⟨ha, hb, hc⟩

theorem TagsDistinct_of_RegistryExact (et : Kind → EventTypeIndex) (typeMap : EventTypeMap)
    (h : RegistryExact et typeMap) : TagsDistinct et := by
  obtain ⟨ha, _, hc⟩ := h
  intro k₁ k₂ heq hz
  have h1 := lookupL_mem _ _ _ (ha k₁ hz)
  have h2 := lookupL_mem _ _ _ (ha k₂ (heq ▸ hz))
  have hnd : (typeMap.entries.map Prod.snd).Nodup := by
    rw [hc]; exact List.nodup_range' 1 _
  have := List.inj_on_of_nodup_map hnd h1 h2 heq
  exact congrArg Prod.fst this

theorem World.exec_single (i : Nat) (calls : List WorldCall) (w : World)
    (hi : ∀ call ∈ calls, call.target = i)
    (h : RegistryExact w.eventType (w.dispatchers i).typeMap) :
    RegistryExact (World.exec calls w).eventType ((World.exec calls w).dispatchers i).typeMap := by
  induction calls generalizing w with
  | nil => exact h
  | cons call rest ih =>
    have ht : call.target = i := hi call (List.mem_cons_self _ _)
    apply ih (w.step call) (fun x hx => hi x (List.mem_cons_of_mem _ hx))
    obtain ⟨K, h1, h2⟩ := run_registry_of_call call ⟨w.eventType, w.dispatchers call.target⟩
    have hs := RegistryExact_RegisterEventType K ⟨w.eventType, w.dispatchers call.target⟩
      (by rw [ht]; exact h)
    rw [← h1, ← h2] at hs
    have hd : (w.step call).dispatchers i =
        (call.run ⟨w.eventType, w.dispatchers call.target⟩).self := by
      simp [World.step, ht]
    rw [hd]
    exact hs

/-- C9, the code at the failing input.  Two default-constructed dispatchers, nothing
registered yet: `RegisterEventType<K1>()` on the first and `RegisterEventType<K2>()` on the
second give the two distinct classes the same proper tag `1`, each recorded in the registry
it was registered on.  After classes 1 and 2 got tags 1 and 2 on dispatcher 0, registering
class 2 and then class 3 on dispatcher 1 makes one registry hold the tag 2 twice.  With the
shared tag, the adapter of listener "A", added for class 1, lets an event of class 2
through: the handler written for class 1 is run on it. -/
theorem tags_collide_across_dispatchers :
    (1 : Kind) ≠ 2 ∧
    (World.exec [.RegisterEventType 0 1, .RegisterEventType 1 2] World.init).eventType 1 = 1 ∧
    (World.exec [.RegisterEventType 0 1, .RegisterEventType 1 2] World.init).eventType 2 = 1 ∧
    ((World.exec [.RegisterEventType 0 1, .RegisterEventType 1 2] World.init).dispatchers
      0).typeMap.find 1 = some 1 ∧
    ((World.exec [.RegisterEventType 0 1, .RegisterEventType 1 2] World.init).dispatchers
      1).typeMap.find 2 = some 1 ∧
    ((World.exec [.RegisterEventType 0 1, .RegisterEventType 0 2, .RegisterEventType 1 2,
      .RegisterEventType 1 3] World.init).dispatchers 1).typeMap.entries = [(2, 2), (3, 2)] ∧
    (Invoke quiet ⟨2, 0⟩ onFirstDispatcher).fired = [(("A", ⟨1, 10⟩), ⟨2, 0⟩)] := by
  decide

/-- What the registration code does achieve.  From the initial state, after any sequence of
`RegisterEventType` and `AddEventListener` calls that are all made on one dispatcher
instance, two distinct classes never have the same proper tag; and after any sequence of such
calls on any number of instances, a tag that is set is not changed by a further call. -/
theorem tags_unique_on_one_dispatcher (calls : List WorldCall) :
    (∀ i, (∀ call ∈ calls, call.target = i) →
      TagsDistinct (World.exec calls World.init).eventType) ∧
    (∀ (call : WorldCall) (k : Kind), (World.exec calls World.init).eventType k ≠ 0 →
      ((World.exec calls World.init).step call).eventType k =
        (World.exec calls World.init).eventType k) := by
  constructor
  · intro i hi
    exact TagsDistinct_of_RegistryExact _ _
      (World.exec_single i calls World.init hi RegistryExact_init)
  · intro call k hk
    obtain ⟨K, h1, _⟩ := run_registry_of_call call
      ⟨(World.exec calls World.init).eventType,
        (World.exec calls World.init).dispatchers call.target⟩
    show (call.run _).eventType k = _
    rw [h1]
    exact RegisterEventType_keeps K k _ hk

/-- Two classes registered on the same dispatcher get distinct tags. -/
theorem tags_unique_on_one_dispatcher_witness :
    (∀ call ∈ [WorldCall.RegisterEventType 0 1, WorldCall.AddEventListener 0 2 "B" 11],
      call.target = 0) ∧
    TagsDistinct (World.exec
      [WorldCall.RegisterEventType 0 1, WorldCall.AddEventListener 0 2 "B" 11]
      World.init).eventType :=
  ⟨by decide,
    (tags_unique_on_one_dispatcher
      [WorldCall.RegisterEventType 0 1, WorldCall.AddEventListener 0 2 "B" 11]).1 0
      (by decide)⟩

/-! ## The assumptions of the theorems above hold in every state the program can reach

`TypeMapPositive` and `Stored` hold for a default-constructed dispatcher and are kept by
every member function and by every dispatch. -/

theorem Stored_init (et : Kind → EventTypeIndex) : Stored ⟨et, EventDispatcher.init⟩ := by
  intro t nc h
  rcases h with h | h <;>
    simp [EventDispatcher.init, KeyMap.empty, KeyMap.getD, KeyMap.find, lookupL] at h

theorem Stored_RegisterEventType (K : Kind) (c : Context) (h : Stored c) :
    Stored (RegisterEventType K c) := by
  intro t nc hnc
  have hfr := RegisterEventType_frame K c
  rw [hfr.2.1, hfr.2.2.1] at hnc
  obtain ⟨h1, h2⟩ := h t nc hnc
  refine ⟨?_, h2⟩
  rw [RegisterEventType_keeps K _ c (by rw [h1]; exact h2)]
  exact h1

theorem Stored_AddEventListener (K : Kind) (name : String) (func : Nat) (c : Context)
    (hp : TypeMapPositive c.self) (h : Stored c) : Stored (AddEventListener K name func c) := by
  intro t nc hnc
  have hreg := Stored_RegisterEventType K c h
  have hcb : (AddEventListener K name func c).self.callbacks =
      (RegisterEventType K c).self.callbacks := rfl
  have hadd : (AddEventListener K name func c).self.toAddCache.getD t [] =
      if (RegisterEventType K c).eventType K = t then
        (RegisterEventType K c).self.toAddCache.getD ((RegisterEventType K c).eventType K) []
          ++ [(name, { EventType := K, func := func })]
      else (RegisterEventType K c).self.toAddCache.getD t [] := by
    show ((RegisterEventType K c).self.toAddCache.alter _ [] _).getD t [] = _
    rw [KeyMap.getD_alter]
  rw [hcb, hadd] at hnc
  show (RegisterEventType K c).eventType nc.2.EventType = t ∧ t ≠ 0
  rcases hnc with hnc | hnc
  · exact hreg t nc (Or.inl hnc)
  · by_cases ht : (RegisterEventType K c).eventType K = t
    · rw [if_pos ht, List.mem_append] at hnc
      rcases hnc with hnc | hnc
      · exact hreg t nc (Or.inr (ht ▸ hnc))
      · simp only [List.mem_singleton] at hnc
        subst hnc
        exact ⟨ht, ht ▸ RegisterEventType_ne_zero K c hp⟩
    · rw [if_neg ht] at hnc
      exact hreg t nc (Or.inr hnc)

theorem invariants_exec (c : Context) (call : Call) (hp : TypeMapPositive c.self)
    (h : Stored c) : TypeMapPositive (call.exec c).self ∧ Stored (call.exec c) := by
  cases call with
  | AddEventListener K name func =>
    exact ⟨TypeMapPositive_AddEventListener K name func c hp,
      Stored_AddEventListener K name func c hp h⟩
  | RemoveEventListener name => exact ⟨hp, h⟩
  | AddEvent event => exact ⟨hp, h⟩
  | RegisterEventType K =>
    exact ⟨TypeMapPositive_RegisterEventType K c hp, Stored_RegisterEventType K c h⟩

theorem invariants_execAll (calls : List Call) (c : Context) (hp : TypeMapPositive c.self)
    (h : Stored c) : TypeMapPositive (execAll calls c).self ∧ Stored (execAll calls c) := by
  induction calls generalizing c with
  | nil => exact ⟨hp, h⟩
  | cons call rest ih =>
    obtain ⟨h1, h2⟩ := invariants_exec c call hp h
    exact ih _ h1 h2

theorem invariants_deliver (H : Handlers σ) (e : Event) (cbs : List NamedCallback) (r : Run σ)
    (hp : TypeMapPositive r.self) (h : Stored r.toContext) :
    TypeMapPositive (deliver H e cbs r).self ∧ Stored (deliver H e cbs r).toContext := by
  induction cbs generalizing r with
  | nil => exact ⟨hp, h⟩
  | cons nc rest ih =>
    have hstep : TypeMapPositive (callback H e r nc).self ∧
        Stored (callback H e r nc).toContext := by
      unfold callback
      split
      · exact invariants_execAll _ _ hp h
      · exact ⟨hp, h⟩
    exact ih _ hstep.1 hstep.2

theorem invariants_Invoke (H : Handlers σ) (e : Event) (r : Run σ)
    (hp : TypeMapPositive r.self) (h : Stored r.toContext) :
    TypeMapPositive (Invoke H e r).self ∧ Stored (Invoke H e r).toContext := by
  have hInv : Invoke H e r = deliver H e (activeListeners r.flush.self) r.flush :=
    ProcessEvent_eq_deliver H e r.flush
  rw [hInv]
  exact invariants_deliver H e _ r.flush hp (Stored_flush r.toContext h)

/-! ## Removal by name -/

theorem entries_removeAll (names : List String) (cbs : KeyMap EventTypeIndex CallbackList) :
    (removeAll names cbs).entries =
      cbs.entries.map (fun p => (p.1, p.2.filter (fun q => decide (q.1 ∉ names)))) := by
  induction names generalizing cbs with
  | nil =>
    simp only [removeAll, List.foldl_nil, List.not_mem_nil, not_false_eq_true, decide_True,
      List.filter_true]
    exact (List.map_id _).symm
  | cons n ns ih =>
    have step : removeAll (n :: ns) cbs =
        removeAll ns (cbs.mapValues (fun list => RemoveEventByName list n)) := rfl
    rw [step, ih]
    simp only [KeyMap.mapValues, List.map_map]
    apply List.map_congr_left
    intro p _
    simp only [Function.comp, RemoveEventByName, List.filter_filter]
    congr 2
    funext q
    by_cases h1 : q.1 = n <;> by_cases h2 : q.1 ∈ ns <;> simp [h1, h2]

theorem removeAll_append (names₁ names₂ : List String)
    (cbs : KeyMap EventTypeIndex CallbackList) :
    removeAll (names₁ ++ names₂) cbs = removeAll names₂ (removeAll names₁ cbs) := by
  simp [removeAll, List.foldl_append]

theorem removeAll_absent (names : List String) (g : String)
    (cbs : KeyMap EventTypeIndex CallbackList)
    (h : ∀ p ∈ cbs.entries, ∀ nc ∈ p.2, nc.1 ≠ g) :
    removeAll (names ++ [g]) cbs = removeAll names cbs := by
  apply KeyMap.ext_entries
  rw [entries_removeAll, entries_removeAll]
  apply List.map_congr_left
  intro p hp
  congr 1
  apply List.filter_congr
  intro nc hnc
  have := h p hp nc hnc
  simp [this]

theorem mem_entries_of_mem_activeListeners (d : EventDispatcher) (h : NamedCallback → Prop)
    (hall : ∀ nc ∈ activeListeners d, h nc) : ∀ p ∈ d.callbacks.entries, ∀ nc ∈ p.2, h nc := by
  intro p hp nc hnc
  apply hall
  unfold activeListeners
  simp only [List.mem_flatten, List.mem_map]
  exact ⟨p.2, ⟨p, hp, rfl⟩, hnc⟩

theorem flush_RemoveEventListener_absent (g : String) (d : EventDispatcher)
    (h : ∀ nc ∈ activeListeners d, nc.1 ≠ g) :
    RemoveQueuedEvents (RemoveEventListener g d) = RemoveQueuedEvents d := by
  have hcb : removeAll (d.toRemoveCache ++ [g]) d.callbacks = removeAll d.toRemoveCache d.callbacks :=
    removeAll_absent _ g _ (mem_entries_of_mem_activeListeners d _ h)
  unfold RemoveQueuedEvents RemoveEventListener
  simp only [hcb]

/-- C12.  When no active listener is named `g`, `RemoveEventListener(g)` followed by
`Invoke(E)` ends in the same state as `Invoke(E)` alone: the same handlers are run in the same
order, and the active table, `toAddCache`, the queue (and every other member) are the same.
Both are total functions: no error is produced. -/
theorem remove_absent_name_noop (H : Handlers σ) (e : Event) (g : String) (r : Run σ)
    (h : ∀ nc ∈ activeListeners r.self, nc.1 ≠ g) :
    Invoke H e (r.call (Call.RemoveEventListener g)) = Invoke H e r ∧
    (Invoke H e (r.call (Call.RemoveEventListener g))).fired = (Invoke H e r).fired ∧
    (Invoke H e (r.call (Call.RemoveEventListener g))).self.callbacks =
      (Invoke H e r).self.callbacks ∧
    (Invoke H e (r.call (Call.RemoveEventListener g))).self.toAddCache =
      (Invoke H e r).self.toAddCache ∧
    (Invoke H e (r.call (Call.RemoveEventListener g))).self.events =
      (Invoke H e r).self.events := by
  have key : Invoke H e (r.call (Call.RemoveEventListener g)) = Invoke H e r := by
    have hf : (r.call (Call.RemoveEventListener g)).flush = r.flush := by
      show ({ r with self := RemoveQueuedEvents (RemoveEventListener g r.self) } : Run σ) = _
      rw [flush_RemoveEventListener_absent g r.self h]
      rfl
    unfold Invoke
    rw [hf]
  rw [key]
  exact ⟨rfl, rfl, rfl, rfl, rfl⟩

/-- C12, at an instance: `RemoveEventListener("ghost")` before `Invoke(Tick)` in the scenario
with listeners "A" and "B". -/
theorem remove_absent_name_noop_witness :
    (∀ nc ∈ activeListeners tickResize.flush.self, nc.1 ≠ "ghost") ∧
    (Invoke quiet ⟨1, 0⟩ (tickResize.flush.call (Call.RemoveEventListener "ghost"))).fired =
      (Invoke quiet ⟨1, 0⟩ tickResize.flush).fired :=
  ⟨by decide,
    (remove_absent_name_noop quiet ⟨1, 0⟩ "ghost" tickResize.flush (by decide)).2.1⟩

theorem AddEventListener_toAddCache (K : Kind) (name : String) (func : Nat) (c : Context)
    (t : EventTypeIndex) :
    (AddEventListener K name func c).self.toAddCache.getD t [] =
      c.self.toAddCache.getD t [] ++
        (if (AddEventListener K name func c).eventType K = t then
          [(name, { EventType := K, func := func })] else []) := by
  show ((RegisterEventType K c).self.toAddCache.alter _ [] _).getD t [] = _
  rw [KeyMap.getD_alter, (RegisterEventType_frame K c).2.2.1]
  by_cases h : (RegisterEventType K c).eventType K = t
  · simp [h, AddEventListener_eventType]
  · simp [h, AddEventListener_eventType]

theorem AddEventListener_frame (K : Kind) (name : String) (func : Nat) (c : Context) :
    (AddEventListener K name func c).self.callbacks = c.self.callbacks ∧
    (AddEventListener K name func c).self.toRemoveCache = c.self.toRemoveCache ∧
    (AddEventListener K name func c).self.events = c.self.events :=
  ⟨(RegisterEventType_frame K c).2.1, (RegisterEventType_frame K c).2.2.2,
    (RegisterEventType_frame K c).1⟩

/-- C11, refuted as stated.  Listener "M" is active and `RemoveEventListener("M")` is pending;
after `RemoveEventListener("N")` and a flush, "M", whose name is not "N", is no longer
active. -/
theorem other_pending_removal_applies :
    ("M", { EventType := 1, func := 10 }) ∈ activeListeners removalOfMPending ∧
    "M" ≠ "N" ∧
    ("M", { EventType := 1, func := 10 }) ∉
      activeListeners (RemoveQueuedEvents (RemoveEventListener "N" removalOfMPending)) := by
  decide

/-- C11, amended.  After `RemoveEventListener(n)` and a flush, the active list under every
tag is the old one without the entries named `n` and without those whose name was already in
`toRemoveCache` (order kept), followed by the pending additions of that tag.  So no listener
that was active before and is named `n` is left under any tag, whatever its class, and every
active listener whose name is neither `n` nor pending removal stays.  Two `AddEventListener`
calls with the same name give two entries after the flush. -/
theorem remove_by_name_all_tags (d : EventDispatcher) (n : String) :
    (∀ t, (RemoveQueuedEvents (RemoveEventListener n d)).callbacks.getD t [] =
      (d.callbacks.getD t []).filter
          (fun p => decide (p.1 ≠ n) && decide (p.1 ∉ d.toRemoveCache))
        ++ d.toAddCache.getD t []) ∧
    (∀ t nc, nc ∈ (d.callbacks.getD t []).filter
        (fun p => decide (p.1 ≠ n) && decide (p.1 ∉ d.toRemoveCache)) → nc.1 ≠ n) ∧
    (∀ t nc, nc ∈ d.callbacks.getD t [] → nc.1 ≠ n → nc.1 ∉ d.toRemoveCache →
      nc ∈ (RemoveQueuedEvents (RemoveEventListener n d)).callbacks.getD t []) ∧
    (∀ (c : Context) (K₁ K₂ : Kind) (name : String) (f₁ f₂ : Nat) (t : EventTypeIndex),
      (RemoveQueuedEvents
          (AddEventListener K₂ name f₂ (AddEventListener K₁ name f₁ c)).self).callbacks.getD t [] =
        (RemoveQueuedEvents c.self).callbacks.getD t [] ++
          (if (AddEventListener K₁ name f₁ c).eventType K₁ = t then
            [(name, { EventType := K₁, func := f₁ })] else []) ++
          (if (AddEventListener K₂ name f₂ (AddEventListener K₁ name f₁ c)).eventType K₂ = t
            then [(name, { EventType := K₂, func := f₂ })] else [])) := by
  have h1 : ∀ t, (RemoveQueuedEvents (RemoveEventListener n d)).callbacks.getD t [] =
      (d.callbacks.getD t []).filter
          (fun p => decide (p.1 ≠ n) && decide (p.1 ∉ d.toRemoveCache))
        ++ d.toAddCache.getD t [] := by
    intro t
    rw [flush_getD]
    show (d.callbacks.getD t []).filter (fun p => decide (p.1 ∉ d.toRemoveCache ++ [n])) ++ _ = _
    congr 1
    apply List.filter_congr
    intro p _
    by_cases ha : p.1 = n <;> by_cases hb : p.1 ∈ d.toRemoveCache <;> simp [ha, hb]
  refine ⟨h1, ?_, ?_, ?_⟩
  · intro t nc hnc
    have := (List.mem_filter.1 hnc).2
    simp only [Bool.and_eq_true, decide_eq_true_eq] at this
    exact this.1
  · intro t nc hnc hn hr
    rw [h1 t]
    apply List.mem_append_left
    rw [List.mem_filter]
    exact ⟨hnc, by simp [hn, hr]⟩
  · intro c K₁ K₂ name f₁ f₂ t
    rw [flush_getD, flush_getD, AddEventListener_toAddCache, AddEventListener_toAddCache]
    have e1 := AddEventListener_frame K₁ name f₁ c
    have e2 := AddEventListener_frame K₂ name f₂ (AddEventListener K₁ name f₁ c)
    rw [e2.1, e2.2.1, e1.1, e1.2.1]
    simp only [List.append_assoc]

/-! ## The adapter -/

/-- C13.  The adapter of a listener added for class `K` runs the user handler exactly when
the tag of the event equals the tag of `K`; otherwise it changes nothing.  Hence, when
distinct classes have distinct tags and `K` has a proper tag, the handler is run (and the
event is cast to `K`) only on events of class `K`. -/
theorem adapter_checks_tag (H : Handlers σ) (e : Event) (r : Run σ) (nc : NamedCallback) :
    ((callback H e r nc).fired = r.fired ++ [(nc, e)] ↔
      r.eventType e.kind = r.eventType nc.2.EventType) ∧
    (r.eventType e.kind = r.eventType nc.2.EventType →
      (callback H e r nc).user = (H nc.2.func r.user e).1 ∧
      (callback H e r nc).toContext = execAll (H nc.2.func r.user e).2 r.toContext) ∧
    (r.eventType e.kind ≠ r.eventType nc.2.EventType → callback H e r nc = r) ∧
    (TagsDistinct r.eventType → r.eventType nc.2.EventType ≠ 0 →
      ((callback H e r nc).fired = r.fired ++ [(nc, e)] ↔ e.kind = nc.2.EventType)) := by
  have hiff : (callback H e r nc).fired = r.fired ++ [(nc, e)] ↔
      r.eventType e.kind = r.eventType nc.2.EventType := by
    rw [callback_fired]
    by_cases hm : r.eventType e.kind = r.eventType nc.2.EventType
    · simp [hm]
    · simp [hm]
  refine ⟨hiff, ?_, ?_, ?_⟩
  · intro hm
    unfold callback
    rw [if_pos hm]
    exact ⟨rfl, rfl⟩
  · intro hm
    unfold callback
    rw [if_neg hm]
  · intro hd hz
    rw [hiff]
    constructor
    · intro hm
      exact hd _ _ hm (by rw [hm]; exact hz)
    · intro hk
      rw [hk]

/-! ## The queue -/

/-- C14.  `AddEvent(event)` puts the event at the end of the queue and does nothing else: the
active table, `toAddCache`, `toRemoveCache` (so no flush happened) and the registry are
unchanged, and as a call of the program it leaves the statics, the state of the user code
and the record of handler executions as they were. -/
theorem AddEvent_spec (event : Event) (d : EventDispatcher) (r : Run σ) :
    (AddEvent event d).events = d.events ++ [event] ∧
    (AddEvent event d).callbacks = d.callbacks ∧
    (AddEvent event d).toAddCache = d.toAddCache ∧
    (AddEvent event d).toRemoveCache = d.toRemoveCache ∧
    (AddEvent event d).typeMap = d.typeMap ∧
    (r.call (Call.AddEvent event)).self = AddEvent event r.self ∧
    (r.call (Call.AddEvent event)).eventType = r.eventType ∧
    (r.call (Call.AddEvent event)).user = r.user ∧
    (r.call (Call.AddEvent event)).fired = r.fired :=
  ⟨rfl, rfl, rfl, rfl, rfl, rfl, rfl, rfl, rfl⟩

/-- C15.  When no handler enqueues, the queue after `Invoke(E)` is the queue before it. -/
theorem Invoke_keeps_queue (H : Handlers σ) (hH : NoEnqueue H) (e : Event) (r : Run σ) :
    (Invoke H e r).self.events = r.self.events := by
  have hInv : Invoke H e r = deliver H e (activeListeners r.flush.self) r.flush :=
    ProcessEvent_eq_deliver H e r.flush
  rw [hInv, deliver_events H hH]
  rfl

/-- C15, at an instance: three events are queued, `Invoke` delivers a fourth one. -/
theorem Invoke_keeps_queue_witness :
    NoEnqueue quiet ∧
    (Invoke quiet ⟨1, 9⟩ threeQueued).self.events = [⟨1, 1⟩, ⟨2, 2⟩, ⟨1, 3⟩] :=
  have hq : NoEnqueue quiet := fun _ _ _ _ h => by simp [quiet] at h
  ⟨hq, (Invoke_keeps_queue quiet hq ⟨1, 9⟩ threeQueued).trans (by decide)⟩

/-! ## Removal and addition of the same name in one flush -/

/-- C16.  A listener that is pending in `toAddCache` when the flush runs is active after the
flush even if its name is in `toRemoveCache`: it is at the end of the list of its tag, after
the survivors of the removal.  This does not depend on the order of the two calls.  The
`Invoke` that made the flush runs it when the event has its tag (a proper one). -/
theorem pending_addition_survives_removal (H : Handlers σ) (e : Event) (r : Run σ)
    (nc : NamedCallback) (t : EventTypeIndex)
    (hrem : nc.1 ∈ r.self.toRemoveCache) (hadd : nc ∈ r.self.toAddCache.getD t [])
    (hm : r.eventType nc.2.EventType = r.eventType e.kind) (hz : r.eventType e.kind ≠ 0) :
    nc ∈ (RemoveQueuedEvents r.self).callbacks.getD t [] ∧
    (∃ survivors, (RemoveQueuedEvents r.self).callbacks.getD t [] =
        survivors ++ r.self.toAddCache.getD t [] ∧ ∀ x ∈ survivors, x.1 ≠ nc.1) ∧
    nc ∈ activeListeners (RemoveQueuedEvents r.self) ∧
    (nc, e) ∈ firedSince r (Invoke H e r) ∧
    (∀ (c : Context) (K : Kind) (name : String) (func : Nat),
      (name, { EventType := K, func := func }) ∈ activeListeners (RemoveQueuedEvents
        ((Call.RemoveEventListener name).exec
          ((Call.AddEventListener K name func).exec c)).self) ∧
      (name, { EventType := K, func := func }) ∈ activeListeners (RemoveQueuedEvents
        ((Call.AddEventListener K name func).exec
          ((Call.RemoveEventListener name).exec c)).self)) := by
  have hin : nc ∈ (RemoveQueuedEvents r.self).callbacks.getD t [] := by
    rw [flush_getD]; exact List.mem_append_right _ hadd
  have hact : nc ∈ activeListeners (RemoveQueuedEvents r.self) :=
    (mem_activeListeners _ nc).2 ⟨t, hin⟩
  refine ⟨hin, ⟨_, flush_getD r.self t, ?_⟩, hact, ?_, ?_⟩
  · intro x hx
    have := (List.mem_filter.1 hx).2
    simp only [decide_eq_true_eq] at this
    exact fun heq => this (heq ▸ hrem)
  · have hInv : Invoke H e r = deliver H e (activeListeners r.flush.self) r.flush :=
      ProcessEvent_eq_deliver H e r.flush
    obtain ⟨X, hX, hmem⟩ := deliver_fires H e r.eventType hz nc hm
      (activeListeners r.flush.self) hact r.flush (fun _ _ => rfl)
    rw [← hInv] at hX
    rw [firedSince_append r (Invoke H e r) X hX]
    exact hmem
  · intro c K name func
    constructor
    · rw [mem_activeListeners]
      refine ⟨(AddEventListener K name func c).eventType K, ?_⟩
      rw [flush_getD]
      apply List.mem_append_right
      show _ ∈ (AddEventListener K name func c).self.toAddCache.getD _ []
      rw [AddEventListener_toAddCache]
      simp
    · rw [mem_activeListeners]
      refine ⟨(AddEventListener K name func
        ((Call.RemoveEventListener name).exec c)).eventType K, ?_⟩
      rw [flush_getD]
      apply List.mem_append_right
      show _ ∈ (AddEventListener K name func _).self.toAddCache.getD _ []
      rw [AddEventListener_toAddCache]
      simp

/-- C16, at an instance: `AddEventListener("N")` then `RemoveEventListener("N")` before any
flush; the next `Invoke` of an event of the class of "N" runs "N". -/
theorem pending_addition_survives_removal_witness :
    "N" ∈ addedThenRemoved.self.toRemoveCache ∧
    firedSince addedThenRemoved (Invoke quiet ⟨1, 0⟩ addedThenRemoved) =
      [(("N", ⟨1, 10⟩), ⟨1, 0⟩)] ∧
    (("N", ⟨1, 10⟩), ⟨1, 0⟩) ∈ firedSince addedThenRemoved
      (Invoke quiet ⟨1, 0⟩ addedThenRemoved) :=
  ⟨by decide, by decide,
    (pending_addition_survives_removal quiet ⟨1, 0⟩ addedThenRemoved ("N", ⟨1, 10⟩) 1
      (by decide) (by decide) (by decide) (by decide)).2.2.2.1⟩

/-! ## Registration of a class that is already tagged -/

/-- C17.  When the static of `K` already holds a proper tag `v`, `RegisterEventType<K>()`
leaves every static as it is and makes the registry hold `v` under `K`, leaving what is
stored under every other class untouched.  When the static of `K` is `0` and `K` is absent
from the registry, `K` gets the tag `size + 1`, recorded under `K`, and nothing else
changes. -/
theorem RegisterEventType_reuses_or_assigns (K : Kind) (c : Context) :
    (c.eventType K ≠ 0 →
      (RegisterEventType K c).eventType = c.eventType ∧
      (RegisterEventType K c).self.typeMap.find K = some (c.eventType K) ∧
      (∀ k, k ≠ K →
        (RegisterEventType K c).self.typeMap.find k = c.self.typeMap.find k)) ∧
    (c.eventType K = 0 → c.self.typeMap.find K = none →
      (RegisterEventType K c).eventType K = c.self.typeMap.size + 1 ∧
      (RegisterEventType K c).self.typeMap.find K = some (c.self.typeMap.size + 1) ∧
      (RegisterEventType K c).self.typeMap.size = c.self.typeMap.size + 1 ∧
      (∀ k, k ≠ K →
        (RegisterEventType K c).eventType k = c.eventType k ∧
        (RegisterEventType K c).self.typeMap.find k = c.self.typeMap.find k)) := by
  constructor
  · intro hv
    have het : (RegisterEventType K c).eventType = c.eventType := by
      rw [RegisterEventType_eventType]; simp [hv]
    refine ⟨het, ?_, ?_⟩
    · rw [RegisterEventType_find, het]
    · intro k hk
      unfold KeyMap.find
      rw [RegisterEventType_entries]
      simp only [hv, if_false]
      rw [lookupL_alterL]
      have : ¬ K = k := fun e => hk e.symm
      simp [this]
  · intro h0 hn
    obtain ⟨het, hent⟩ := RegisterEventType_fresh K c h0 hn
    refine ⟨by rw [het]; simp, ?_, by simp [KeyMap.size, hent], ?_⟩
    · have := RegisterEventType_find K c
      rw [het] at this
      simpa using this
    · intro k hk
      refine ⟨by rw [het, Function.update_noteq hk], ?_⟩
      unfold KeyMap.find
      rw [hent]
      cases hf : lookupL k c.self.typeMap.entries with
      | none =>
        rw [lookupL_append_none _ _ _ hf]
        have : ¬ K = k := fun e => hk e.symm
        simp [lookupL, this]
      | some v => exact lookupL_append_some _ _ _ _ hf

/-- C17, at an instance: class 6 got tag 2 on dispatcher 0; registering it on the fresh
dispatcher 1 keeps the tag 2 and records it there, while class 7, not registered anywhere,
gets `size + 1 = 1` on dispatcher 1. -/
theorem RegisterEventType_reuses_or_assigns_witness :
    secondDispatcher.eventType 6 ≠ 0 ∧
    (RegisterEventType 6 secondDispatcher).eventType 6 = 2 ∧
    (RegisterEventType 6 secondDispatcher).self.typeMap.find 6 = some 2 ∧
    secondDispatcher.eventType 7 = 0 ∧ secondDispatcher.self.typeMap.find 7 = none ∧
    (RegisterEventType 7 secondDispatcher).eventType 7 = 1 :=
  have h6 := (RegisterEventType_reuses_or_assigns 6 secondDispatcher).1 (by decide)
  have h7 := (RegisterEventType_reuses_or_assigns 7 secondDispatcher).2 (by decide) (by decide)
  ⟨by decide, (congrFun h6.1 6).trans (by decide), h6.2.1.trans (by decide), by decide,
    by decide, h7.1.trans (by decide)⟩

/-! ## Flushing twice -/

theorem addAll_empty (entries : List (EventTypeIndex × CallbackList))
    (h : ∀ p ∈ entries, p.2 = []) (cbs : KeyMap EventTypeIndex CallbackList) :
    addAll entries cbs = cbs := by
  induction entries generalizing cbs with
  | nil => rfl
  | cons p ps ih =>
    have step : addAll (p :: ps) cbs =
        addAll ps (p.2.foldl
          (fun cbs func => cbs.alter p.1 [] (fun list => list ++ [func])) cbs) := rfl
    rw [step, h p (List.mem_cons_self _ _)]
    exact ih (fun q hq => h q (List.mem_cons_of_mem _ hq)) cbs

theorem flush_of_nothing_pending (d : EventDispatcher) (hr : d.toRemoveCache = [])
    (ha : ∀ p ∈ d.toAddCache.entries, p.2 = []) : RemoveQueuedEvents d = d := by
  have h1 : (RemoveQueuedEvents d).callbacks = d.callbacks := by
    show addAll d.toAddCache.entries (removeAll d.toRemoveCache d.callbacks) = _
    rw [hr, addAll_empty _ ha]
    rfl
  have h2 : (RemoveQueuedEvents d).toAddCache = d.toAddCache := by
    apply KeyMap.ext_entries
    show d.toAddCache.entries.map (fun p => (p.1, ([] : CallbackList))) = d.toAddCache.entries
    conv => rhs; rw [← List.map_id d.toAddCache.entries]
    apply List.map_congr_left
    intro p hp
    rw [← ha p hp]
    rfl
  exact EventDispatcher_ext_fields rfl h1 h2 hr.symm rfl

theorem flush_pending_entries (d : EventDispatcher) :
    ∀ p ∈ (RemoveQueuedEvents d).toAddCache.entries, p.2 = [] := by
  intro p hp
  simp only [RemoveQueuedEvents, KeyMap.mapValues, List.mem_map] at hp
  obtain ⟨q, _, rfl⟩ := hp
  rfl

theorem exec_pending (c : Context) (call : Call)
    (h1 : ∀ K name f, call ≠ Call.AddEventListener K name f)
    (h2 : ∀ name, call ≠ Call.RemoveEventListener name) :
    (call.exec c).self.toAddCache = c.self.toAddCache ∧
    (call.exec c).self.toRemoveCache = c.self.toRemoveCache := by
  cases call with
  | AddEventListener K name func => exact absurd rfl (h1 K name func)
  | RemoveEventListener name => exact absurd rfl (h2 name)
  | AddEvent event => exact ⟨rfl, rfl⟩
  | RegisterEventType K =>
    exact ⟨(RegisterEventType_frame K c).2.2.1, (RegisterEventType_frame K c).2.2.2⟩

theorem execAll_pending (calls : List Call) (c : Context)
    (h1 : ∀ K name f, Call.AddEventListener K name f ∉ calls)
    (h2 : ∀ name, Call.RemoveEventListener name ∉ calls) :
    (execAll calls c).self.toAddCache = c.self.toAddCache ∧
    (execAll calls c).self.toRemoveCache = c.self.toRemoveCache := by
  induction calls generalizing c with
  | nil => exact ⟨rfl, rfl⟩
  | cons call rest ih =>
    have hstep := exec_pending c call
      (fun K name f e => h1 K name f (e ▸ List.mem_cons_self _ _))
      (fun name e => h2 name (e ▸ List.mem_cons_self _ _))
    have hrest := ih (call.exec c)
      (fun K name f hm => h1 K name f (List.mem_cons_of_mem _ hm))
      (fun name hm => h2 name (List.mem_cons_of_mem _ hm))
    exact ⟨hrest.1.trans hstep.1, hrest.2.trans hstep.2⟩

theorem deliver_pending (H : Handlers σ) (hH : NoListenerCalls H) (e : Event)
    (cbs : List NamedCallback) (r : Run σ) :
    (deliver H e cbs r).self.toAddCache = r.self.toAddCache ∧
    (deliver H e cbs r).self.toRemoveCache = r.self.toRemoveCache := by
  induction cbs generalizing r with
  | nil => exact ⟨rfl, rfl⟩
  | cons nc rest ih =>
    have hstep : (callback H e r nc).self.toAddCache = r.self.toAddCache ∧
        (callback H e r nc).self.toRemoveCache = r.self.toRemoveCache := by
      unfold callback
      split
      · exact execAll_pending _ _ (hH _ _ _).1 (hH _ _ _).2
      · exact ⟨rfl, rfl⟩
    have hrest := ih (callback H e r nc)
    exact ⟨hrest.1.trans hstep.1, hrest.2.trans hstep.2⟩

/-- C20.  `RemoveQueuedEvents` run a second time changes nothing: the active table (entries
and order) and the emptied pending structures are those left by the first run.  Hence, when
the handlers call neither `AddEventListener` nor `RemoveEventListener`, the `Invoke` that
follows an `Invoke` dispatches to the same listeners in the same order. -/
theorem RemoveQueuedEvents_idempotent (H : Handlers σ) (e : Event) (r : Run σ)
    (d : EventDispatcher) :
    RemoveQueuedEvents (RemoveQueuedEvents d) = RemoveQueuedEvents d ∧
    (RemoveQueuedEvents (RemoveQueuedEvents d)).callbacks = (RemoveQueuedEvents d).callbacks ∧
    (RemoveQueuedEvents (RemoveQueuedEvents d)).toRemoveCache = [] ∧
    (∀ p ∈ (RemoveQueuedEvents (RemoveQueuedEvents d)).toAddCache.entries, p.2 = []) ∧
    (NoListenerCalls H →
      (RemoveQueuedEvents (Invoke H e r).self).callbacks = (RemoveQueuedEvents r.self).callbacks ∧
      activeListeners (RemoveQueuedEvents (Invoke H e r).self) =
        activeListeners (RemoveQueuedEvents r.self)) := by
  have key : RemoveQueuedEvents (RemoveQueuedEvents d) = RemoveQueuedEvents d :=
    flush_of_nothing_pending _ rfl (flush_pending_entries d)
  refine ⟨key, by rw [key], rfl, flush_pending_entries _, ?_⟩
  intro hH
  have hInv : Invoke H e r = deliver H e (activeListeners r.flush.self) r.flush :=
    ProcessEvent_eq_deliver H e r.flush
  have hp := deliver_pending H hH e (activeListeners r.flush.self) r.flush
  have hc := deliver_callbacks H e (activeListeners r.flush.self) r.flush
  rw [← hInv] at hp hc
  have hfix : RemoveQueuedEvents (Invoke H e r).self = (Invoke H e r).self := by
    apply flush_of_nothing_pending
    · rw [hp.2]; rfl
    · rw [hp.1]; exact flush_pending_entries r.self
  have hcb : (RemoveQueuedEvents (Invoke H e r).self).callbacks =
      (RemoveQueuedEvents r.self).callbacks := by
    rw [hfix, hc]; rfl
  exact ⟨hcb, by unfold activeListeners; rw [hcb]⟩

/-- C20, at an instance: handlers that make no call; the second `Invoke` finds the active
table the first one left. -/
theorem RemoveQueuedEvents_idempotent_witness :
    NoListenerCalls quiet ∧
    activeListeners (RemoveQueuedEvents (Invoke quiet ⟨1, 0⟩ tickResize).self) =
      [("A", ⟨1, 10⟩), ("B", ⟨2, 11⟩)] :=
  have hq : NoListenerCalls quiet := fun _ _ _ =>
    ⟨fun _ _ _ h => by simp [quiet] at h, fun _ h => by simp [quiet] at h⟩
  ⟨hq, ((RemoveQueuedEvents_idempotent quiet ⟨1, 0⟩ tickResize tickResize.self).2.2.2.2
    hq).2.trans (by decide)⟩

/-! ## Dispatch by tag -/

theorem deliver_eq_runHandlers (H : Handlers σ) (e : Event) (et : Kind → EventTypeIndex)
    (cbs : List NamedCallback) (hcbs : ∀ nc ∈ cbs, et nc.2.EventType ≠ 0) (r : Run σ)
    (hst : Stable et r.toContext) (he : r.eventType e.kind = et e.kind) :
    deliver H e cbs r =
      (cbs.filter (fun nc => decide (et e.kind = et nc.2.EventType))).foldl
        (runHandler H e) r := by
  induction cbs generalizing r with
  | nil => rfl
  | cons nc rest ih =>
    have hz := hcbs nc (List.mem_cons_self _ _)
    have hnc : r.eventType nc.2.EventType = et nc.2.EventType := hst _ hz
    have hd : deliver H e (nc :: rest) r = deliver H e rest (callback H e r nc) := rfl
    rw [hd]
    by_cases hm : et e.kind = et nc.2.EventType
    · have hcb : callback H e r nc = runHandler H e r nc := by
        unfold callback
        rw [if_pos (by rw [he, hnc]; exact hm)]
        rfl
      have hst1 : Stable et (runHandler H e r nc).toContext := execAll_stable et _ _ hst
      rw [hcb, ih (fun x hx => hcbs x (List.mem_cons_of_mem _ hx)) _ hst1
        (hst1 _ (by rw [hm]; exact hz))]
      simp [List.filter_cons, hm]
    · have hcb : callback H e r nc = r := by
        unfold callback
        rw [if_neg (by rw [he, hnc]; exact hm)]
      rw [hcb, ih (fun x hx => hcbs x (List.mem_cons_of_mem _ hx)) _ hst he]
      simp [List.filter_cons, hm]

/-- C18.  In a state where every listener is filed under the proper tag of its class (an
invariant of every reachable state), `ProcessEvent(E)`, which offers `E` to the adapters of
all lists, ends in the same state as running, without any check, the handlers of the list
stored under the tag of `E` only, in list order: the same handlers run in the same
sequence. -/
theorem ProcessEvent_eq_ProcessEventByTag (H : Handlers σ) (e : Event) (r : Run σ)
    (hs : Stored r.toContext) :
    ProcessEvent H e r = ProcessEventByTag H e r ∧
    (ProcessEvent H e r).fired = (ProcessEventByTag H e r).fired ∧
    (ProcessEventByTag H e r).fired =
      r.fired ++ (r.self.callbacks.getD (r.eventType e.kind) []).map (fun nc => (nc, e)) := by
  have hact : ∀ nc ∈ activeListeners r.self, r.eventType nc.2.EventType ≠ 0 := by
    intro nc hnc
    obtain ⟨t, ht⟩ := (mem_activeListeners _ nc).1 hnc
    have := hs t nc (Or.inl ht)
    rw [this.1]; exact this.2
  have hfilter : (activeListeners r.self).filter
      (fun nc => decide (r.eventType e.kind = r.eventType nc.2.EventType)) =
      r.self.callbacks.getD (r.eventType e.kind) [] :=
    filter_flatten_eq_lookup _ (r.eventType e.kind) r.self.callbacks.entries
      r.self.callbacks.nodup
      (fun q hq nc hnc => by
        have hg := getD_of_mem_entries r.self.callbacks q.1 q.2 [] hq
        have h1 := hs q.1 nc (Or.inl (by rw [hg]; exact hnc))
        simp only [decide_eq_true_eq]
        rw [h1.1]
        exact eq_comm)
  have key : ProcessEvent H e r = ProcessEventByTag H e r := by
    rw [ProcessEvent_eq_deliver,
      deliver_eq_runHandlers H e r.eventType _ hact r (fun _ _ => rfl) rfl, hfilter]
    rfl
  refine ⟨key, by rw [key], ?_⟩
  rw [← key, ProcessEvent_eq_deliver,
    (deliver_fired_exact H e r.eventType _ hact r (fun _ _ => rfl) rfl).1, hfilter]

/-- C18, at an instance: "A" active under tag 1 and "B" under tag 2; an event of class 1
reaches "A" only, by either way of dispatching. -/
theorem ProcessEvent_eq_ProcessEventByTag_witness :
    Stored tickResize.flush.toContext ∧
    (ProcessEvent quiet ⟨1, 0⟩ tickResize.flush).fired = [(("A", ⟨1, 10⟩), ⟨1, 0⟩)] ∧
    (ProcessEventByTag quiet ⟨1, 0⟩ tickResize.flush).fired = [(("A", ⟨1, 10⟩), ⟨1, 0⟩)] :=
  have hs : Stored tickResize.flush.toContext := Stored_flush _ tickResize_stored
  have h := ProcessEvent_eq_ProcessEventByTag quiet ⟨1, 0⟩ tickResize.flush hs
  ⟨hs, h.2.1.trans (by decide), by decide⟩

/-! ## Events enqueued while `InvokeAll` runs -/

theorem exec_events_grow (c : Context) (call : Call) :
    ∃ added, (call.exec c).self.events = c.self.events ++ added := by
  cases call with
  | AddEventListener K name func => exact ⟨[], by simp [Call.exec, AddEventListener_frame]⟩
  | RemoveEventListener name => exact ⟨[], by simp [Call.exec, RemoveEventListener]⟩
  | AddEvent event => exact ⟨[event], rfl⟩
  | RegisterEventType K =>
    exact ⟨[], by simp [Call.exec, (RegisterEventType_frame K c).1]⟩

theorem execAll_events_grow (calls : List Call) (c : Context) :
    ∃ added, (execAll calls c).self.events = c.self.events ++ added := by
  induction calls generalizing c with
  | nil => exact ⟨[], by simp [execAll]⟩
  | cons call rest ih =>
    obtain ⟨a₁, h₁⟩ := exec_events_grow c call
    obtain ⟨a₂, h₂⟩ := ih (call.exec c)
    refine ⟨a₁ ++ a₂, ?_⟩
    show (execAll rest (call.exec c)).self.events = _
    rw [h₂, h₁, List.append_assoc]

theorem deliver_events_grow (H : Handlers σ) (e : Event) (cbs : List NamedCallback)
    (r : Run σ) : ∃ added, (deliver H e cbs r).self.events = r.self.events ++ added := by
  induction cbs generalizing r with
  | nil => exact ⟨[], by simp [deliver]⟩
  | cons nc rest ih =>
    have hstep : ∃ added, (callback H e r nc).self.events = r.self.events ++ added := by
      unfold callback
      split
      · exact execAll_events_grow _ _
      · exact ⟨[], by simp⟩
    obtain ⟨a₁, h₁⟩ := hstep
    obtain ⟨a₂, h₂⟩ := ih (callback H e r nc)
    refine ⟨a₁ ++ a₂, ?_⟩
    show (deliver H e rest (callback H e r nc)).self.events = _
    rw [h₂, h₁, List.append_assoc]

theorem InvokeAllLoop_result (H : Handlers σ) (cbs : List NamedCallback) (fuel i : Nat)
    (r r₁ : Run σ) (hc : activeListeners r.self = cbs)
    (h : InvokeAllLoop H fuel i r = some r₁) :
    ∃ added, r₁.self.events = r.self.events ++ added ∧
      r₁ = dispatchPass H cbs ((r.self.events ++ added).drop i) r := by
  induction fuel generalizing i r with
  | zero =>
    unfold InvokeAllLoop at h
    by_cases hi : i < r.self.events.length
    · rw [if_pos hi] at h; cases h
    · rw [if_neg hi] at h
      cases h
      refine ⟨[], by simp, ?_⟩
      rw [List.append_nil, List.drop_eq_nil_of_le (by omega)]
      rfl
  | succ fuel ih =>
    unfold InvokeAllLoop at h
    by_cases hi : i < r.self.events.length
    · rw [dif_pos hi] at h
      have hp : ProcessEvent H (r.self.events.get ⟨i, hi⟩) r =
          deliver H (r.self.events.get ⟨i, hi⟩) cbs r := by
        rw [ProcessEvent_eq_deliver, hc]
      rw [hp] at h
      have hcb : activeListeners (deliver H (r.self.events.get ⟨i, hi⟩) cbs r).self = cbs := by
        unfold activeListeners
        rw [deliver_callbacks]
        exact hc
      obtain ⟨a₁, h₁⟩ := deliver_events_grow H (r.self.events.get ⟨i, hi⟩) cbs r
      obtain ⟨a₂, h₂, h₃⟩ := ih (i + 1) _ hcb h
      refine ⟨a₁ ++ a₂, by rw [h₂, h₁, List.append_assoc], ?_⟩
      have hlen : i < (r.self.events ++ (a₁ ++ a₂)).length := by
        rw [List.length_append]; omega
      have hget : (r.self.events ++ (a₁ ++ a₂)).get ⟨i, hlen⟩ = r.self.events.get ⟨i, hi⟩ := by
        simp [List.getElem_append_left hi]
      have hdrop : (r.self.events ++ (a₁ ++ a₂)).drop i =
          r.self.events.get ⟨i, hi⟩ :: (r.self.events ++ (a₁ ++ a₂)).drop (i + 1) := by
        rw [List.drop_eq_getElem_cons hlen]
        congr 1
      rw [hdrop, h₃, h₁, List.append_assoc]
      rfl
    · rw [dif_neg hi] at h
      cases h
      refine ⟨[], by simp, ?_⟩
      rw [List.append_nil, List.drop_eq_nil_of_le (by omega)]
      rfl

theorem InvokeAllLoop_none (H : Handlers σ) (fuel i : Nat) (r : Run σ)
    (h : InvokeAllLoop H fuel i r = none) :
    i + fuel < (InvokeAllSteps H fuel i r).self.events.length := by
  induction fuel generalizing i r with
  | zero =>
    unfold InvokeAllLoop at h
    by_cases hi : i < r.self.events.length
    · simpa [InvokeAllSteps] using hi
    · rw [if_neg hi] at h; cases h
  | succ fuel ih =>
    unfold InvokeAllLoop at h
    by_cases hi : i < r.self.events.length
    · rw [dif_pos hi] at h
      have := ih (i + 1) _ h
      unfold InvokeAllSteps
      rw [dif_pos hi]
      omega
    · rw [dif_neg hi] at h; cases h

theorem InvokeAllSteps_done (H : Handlers σ) (k i : Nat) (r : Run σ)
    (hi : ¬ i < r.self.events.length) : InvokeAllSteps H k i r = r := by
  cases k with
  | zero => rfl
  | succ k =>
    unfold InvokeAllSteps
    rw [dif_neg hi]

/-- C19.  When `InvokeAll` returns, the queue it leaves is empty, and what it did is: one
flush, then the delivery, in queue order, of every event of the final queue, which is the
queue at the call followed by the events the handlers enqueued during the pass; so such an
event is delivered in the same pass, after everything queued before it.  `InvokeAll` returns
whenever the queue stays bounded along the loop, that is, whenever the handlers enqueue
finitely many events. -/
theorem InvokeAll_drains_live_queue (H : Handlers σ) (r : Run σ) :
    (∀ fuel r', InvokeAll H fuel r = some r' →
      r'.self.events = [] ∧
      ∃ added,
        r' = (dispatchPass H (activeListeners (RemoveQueuedEvents r.self))
          (r.self.events ++ added) r.flush).clearEvents ∧
        (dispatchPass H (activeListeners (RemoveQueuedEvents r.self))
          (r.self.events ++ added) r.flush).self.events = r.self.events ++ added) ∧
    (∀ N, (∀ k, (InvokeAllSteps H k 0 r.flush).self.events.length ≤ N) →
      ∃ r', InvokeAll H N r = some r') := by
  constructor
  · intro fuel r' h
    unfold InvokeAll at h
    cases hl : InvokeAllLoop H fuel 0 r.flush with
    | none => rw [hl] at h; cases h
    | some r₁ =>
      rw [hl] at h
      simp only [Option.map_some', Option.some.injEq] at h
      obtain ⟨added, h₁, h₂⟩ := InvokeAllLoop_result H
        (activeListeners (RemoveQueuedEvents r.self)) fuel 0 r.flush r₁ rfl hl
      have hev : r.flush.self.events = r.self.events := rfl
      rw [hev, List.drop_zero] at h₂
      rw [hev] at h₁
      subst h
      refine ⟨rfl, added, by rw [← h₂], by rw [← h₂]; exact h₁⟩
  · intro N hN
    unfold InvokeAll
    cases hl : InvokeAllLoop H N 0 r.flush with
    | none =>
      have := InvokeAllLoop_none H N 0 r.flush hl
      have := hN N
      omega
    | some r₁ => exact ⟨_, rfl⟩

/-- C19, at an instance: one event is queued and the handler of "A" enqueues a second one
while it runs on the first; `InvokeAll` delivers both, in this order, and returns with an
empty queue. -/
theorem InvokeAll_drains_live_queue_witness :
    (∀ k, (InvokeAllSteps enqueueOnce k 0 oneQueued.flush).self.events.length ≤ 2) ∧
    (∃ r', InvokeAll enqueueOnce 2 oneQueued = some r') ∧
    (InvokeAll enqueueOnce 2 oneQueued).map (fun r => (r.fired, r.self.events)) =
      some ([(("A", ⟨1, 10⟩), ⟨1, 0⟩), (("A", ⟨1, 10⟩), ⟨1, 1⟩)], []) :=
  have hb : ∀ k, (InvokeAllSteps enqueueOnce k 0 oneQueued.flush).self.events.length ≤ 2 := by
    intro k
    match k with
    | 0 => decide
    | 1 => decide
    | n + 2 =>
      have h2 : InvokeAllSteps enqueueOnce (n + 2) 0 oneQueued.flush =
          InvokeAllSteps enqueueOnce n 2 (InvokeAllSteps enqueueOnce 2 0 oneQueued.flush) := rfl
      rw [h2, InvokeAllSteps_done enqueueOnce n 2 _ (by decide)]
      decide
  ⟨hb, (InvokeAll_drains_live_queue enqueueOnce oneQueued).2 2 hb, by decide⟩

/-! ## `Clone` -/

theorem RegisterEventType_registry_only (K : Kind) (c₁ c₂ : Context)
    (het : c₁.eventType = c₂.eventType) (hm : c₁.self.typeMap = c₂.self.typeMap) :
    (RegisterEventType K c₁).eventType = (RegisterEventType K c₂).eventType ∧
    (RegisterEventType K c₁).self.typeMap = (RegisterEventType K c₂).self.typeMap := by
  constructor
  · rw [RegisterEventType_eventType, RegisterEventType_eventType, het, hm]
  · apply KeyMap.ext_entries
    rw [RegisterEventType_entries, RegisterEventType_entries, het, hm]

/-- C21.  `Clone()` returns a dispatcher with the registry of the original and with an empty
active table, empty `toAddCache`, `toRemoveCache` and queue; the original (and every other
instance, and the statics) stays as it is.  A class registered next on the clone gets the
tag, and leaves the registry, that the same registration on the original would give. -/
theorem Clone_spec (d : EventDispatcher) (et : Kind → EventTypeIndex) (K : Kind) (w : World)
    (source target : Nat) :
    (Clone d).typeMap = d.typeMap ∧
    (Clone d).callbacks.entries = [] ∧
    (Clone d).toAddCache.entries = [] ∧
    (Clone d).toRemoveCache = [] ∧
    (Clone d).events = [] ∧
    activeListeners (Clone d) = [] ∧
    ((w.Clone source target).dispatchers target = Clone (w.dispatchers source) ∧
      (w.Clone source target).eventType = w.eventType ∧
      ∀ i, i ≠ target → (w.Clone source target).dispatchers i = w.dispatchers i) ∧
    (RegisterEventType K ⟨et, Clone d⟩).eventType K = (RegisterEventType K ⟨et, d⟩).eventType K ∧
    (RegisterEventType K ⟨et, Clone d⟩).eventType = (RegisterEventType K ⟨et, d⟩).eventType ∧
    (RegisterEventType K ⟨et, Clone d⟩).self.typeMap =
      (RegisterEventType K ⟨et, d⟩).self.typeMap := by
  have h := RegisterEventType_registry_only K ⟨et, Clone d⟩ ⟨et, d⟩ rfl rfl
  refine ⟨rfl, rfl, rfl, rfl, rfl, rfl, ⟨?_, rfl, ?_⟩, by rw [h.1], h.1, h.2⟩
  · simp [World.Clone]
  · intro i hi
    simp [World.Clone, Function.update_noteq hi]

/-! ## The key binding of the runtime editor -/

theorem keyBindingUpdate_eq (saved isHeld isActive : Bool) :
    keyBindingUpdate saved isHeld isActive =
      (isHeld, if isHeld && !saved then some (!isActive) else none) := by
  cases saved <;> cases isHeld <;> cases isActive <;> rfl

theorem heldAt_cons_succ (reading : Bool × Bool) (rest : List (Bool × Bool)) (j : Nat) :
    heldAt (reading :: rest) (j + 1) = heldAt rest j := by
  simp [heldAt]

theorem heldBefore_cons_succ (initial : Bool) (reading : Bool × Bool)
    (rest : List (Bool × Bool)) (j : Nat) :
    heldBefore initial (reading :: rest) (j + 1) = heldBefore reading.1 rest j := by
  cases j with
  | zero => simp [heldBefore, heldAt]
  | succ k => simp [heldBefore, heldAt]

theorem keyBindingRun_get (saved : Bool) (readings : List (Bool × Bool)) (i : Nat)
    (hi : i < readings.length) :
    (keyBindingRun saved readings)[i]? =
      some (heldAt readings i,
        if heldAt readings i && !heldBefore saved readings i then
          some (!((readings[i]?).getD (false, false)).2)
        else none) := by
  induction readings generalizing saved i with
  | nil => simp at hi
  | cons reading rest ih =>
    cases i with
    | zero =>
      simp [keyBindingRun, keyBindingUpdate_eq, heldAt, heldBefore]
    | succ j =>
      have hj : j < rest.length := by simpa using hi
      have := ih (keyBindingUpdate saved reading.1 reading.2).1 j hj
      rw [keyBindingUpdate_eq] at this
      simp only [keyBindingRun, List.getElem?_cons_succ]
      rw [keyBindingUpdate_eq, this, heldAt_cons_succ, heldBefore_cons_succ]

theorem keyBindingRun_all_held (saved : Bool) (readings : List (Bool × Bool))
    (h : ∀ reading ∈ readings, reading.1 = true) :
    ((keyBindingRun saved readings).filter (fun out => out.2.isSome)).length =
      if saved || readings.isEmpty then 0 else 1 := by
  induction readings generalizing saved with
  | nil => simp [keyBindingRun]
  | cons reading rest ih =>
    have h1 : reading.1 = true := h reading (List.mem_cons_self _ _)
    have h2 := ih true (fun x hx => h x (List.mem_cons_of_mem _ hx))
    simp only [keyBindingRun, keyBindingUpdate_eq, h1] at h2 ⊢
    cases saved <;> simp [List.filter_cons, h2]

/-- C22.  Started with `savedStateKeyHeld = false`, on every update `i` of any sequence of
updates the handler leaves `savedStateKeyHeld` equal to the key-held reading of that update,
and it makes its `ToggleRuntimeEditor` call (with the negation of `IsActive()`) exactly when
that reading is true and the reading of the update before was false, the reading before the
first update counting as false.  While the key is held over consecutive updates, the call is
made once. -/
theorem keyBinding_rising_edge (readings : List (Bool × Bool)) :
    (keyBindingRun false readings).length = readings.length ∧
    (∀ i, i < readings.length →
      ∃ out, (keyBindingRun false readings)[i]? = some out ∧
        out.1 = heldAt readings i ∧
        (out.2.isSome = true ↔
          heldAt readings i = true ∧ heldBefore false readings i = false) ∧
        (out.2.isSome = true → out.2 = some (!((readings[i]?).getD (false, false)).2))) ∧
    ((∀ reading ∈ readings, reading.1 = true) → readings ≠ [] →
      ((keyBindingRun false readings).filter (fun out => out.2.isSome)).length = 1) := by
  refine ⟨?_, ?_, ?_⟩
  · generalize false = s
    induction readings generalizing s with
    | nil => rfl
    | cons reading rest ih => simp [keyBindingRun, ih]
  · intro i hi
    refine ⟨_, keyBindingRun_get false readings i hi, rfl, ?_, ?_⟩
    · cases heldAt readings i <;> cases heldBefore false readings i <;> simp
    · cases heldAt readings i <;> cases heldBefore false readings i <;> simp
  · intro h hne
    rw [keyBindingRun_all_held false readings h]
    cases readings with
    | nil => exact absurd rfl hne
    | cons _ _ => rfl

/-- C22, at an instance: the key is up, held for three updates, up, and held again; the
editor (inactive at first) is switched on at the second update and off at the sixth. -/
theorem keyBinding_rising_edge_witness :
    keyBindingRun false
        [(false, false), (true, false), (true, true), (true, true), (false, true),
          (true, true)] =
      [(false, none), (true, some true), (true, none), (true, none), (false, none),
        (true, some false)] ∧
    ((keyBindingRun false [(true, false), (true, true), (true, true)]).filter
      (fun out => out.2.isSome)).length = 1 :=
  ⟨by decide,
    (keyBinding_rising_edge [(true, false), (true, true), (true, true)]).2.2
      (by decide) (by decide)⟩

/-! ## A listener removed during a dispatch -/

end MxEngine
